import Mathlib

/- Shallow embedding of the pretty-postgres schema renderer: the current
   `generate` pipeline (src/unnamed/part_000) together with the string
   helpers of src/src/utils.ts and the row shapes of src/src/queries.ts.
   JS strings are modelled as Lean `String` (lists of characters); the
   JS helper primitives used by the source (`padEnd`, `replace`, `trim`,
   `split`, `join`) are embedded below on character lists. -/

set_option maxRecDepth 8192

namespace PrettyPostgres

/-! ### JS string primitives used by the source -/

/-- JS `Array.prototype.join(sep)` on character lists. -/
def intercalateL (sep : List Char) : List (List Char) → List Char
  | [] => []
  | [w] => w
  | w :: ws => w ++ sep ++ intercalateL sep ws

/-- JS `Array.prototype.join(sep)` at the `String` level. -/
def joinWith (sep : String) (l : List String) : String :=
  ⟨intercalateL sep.data (l.map String.data)⟩

/-- JS `String.prototype.padEnd(n, " ")`: right-pad with spaces up to
    length `n`; a longer string is returned unchanged. -/
def padEnd (s : String) (n : Nat) : String :=
  s ++ ⟨List.replicate (n - s.length) ' '⟩

/-- The backquote and quote characters, by code point. -/
def backquoteChar : Char := Char.ofNat 96

def quoteChar : Char := Char.ofNat 39

/-- `GetSubstitution` (ECMA-262 22.1.3.19.1) for a string pattern and a
    string replacement: `$$` is a literal dollar, `$&` the matched
    substring, dollar-backquote the part of the subject before the match,
    dollar-quote the part after it; any other dollar (including a
    trailing one) is literal.  A string pattern has no capture groups,
    so `$n` and `$<name>` also stay literal (the final catch-all). -/
def getSubstitutionL (matched before after : List Char) : List Char → List Char
  | [] => []
  | [c] => [c]
  | c :: d :: rest =>
      if c = '$' then
        if d = '$' then '$' :: getSubstitutionL matched before after rest
        else if d = '&' then matched ++ getSubstitutionL matched before after rest
        else if d = backquoteChar then before ++ getSubstitutionL matched before after rest
        else if d = quoteChar then after ++ getSubstitutionL matched before after rest
        else '$' :: getSubstitutionL matched before after (d :: rest)
      else c :: getSubstitutionL matched before after (d :: rest)

/-- JS `String.prototype.replace(pat, rep)` with a string pattern and a
    string replacement: replaces the first occurrence of `pat` by `rep`
    passed through `GetSubstitution`; if `pat` does not occur the string
    is returned unchanged.  `pre` accumulates the subject text before the
    match position. -/
def replaceFirstAux (pat rep : List Char) : List Char → List Char → List Char
  | pre, [] =>
      if pat.isPrefixOf ([] : List Char) then getSubstitutionL pat pre [] rep else []
  | pre, c :: cs =>
      if pat.isPrefixOf (c :: cs) then
        getSubstitutionL pat pre ((c :: cs).drop pat.length) rep ++ (c :: cs).drop pat.length
      else c :: replaceFirstAux pat rep (pre ++ [c]) cs

def replaceFirstL (pat rep s : List Char) : List Char :=
  replaceFirstAux pat rep [] s

/-- `replace` (first occurrence) at the `String` level. -/
def replaceFirst (s pat rep : String) : String :=
  ⟨replaceFirstL pat.data rep.data s.data⟩

/-- JS `String.prototype.split(" ")`: cuts at every single space,
    keeping empty chunks. -/
def splitOnSpaceL : List Char → List (List Char)
  | [] => [[]]
  | c :: cs =>
      if c = ' ' then [] :: splitOnSpaceL cs
      else
        match splitOnSpaceL cs with
        | [] => [[c]]
        | w :: ws => (c :: w) :: ws

/-- JS `String.prototype.trim()`: drop leading and trailing whitespace. -/
def trimL (l : List Char) : List Char :=
  ((l.dropWhile Char.isWhitespace).reverse.dropWhile Char.isWhitespace).reverse

/-! ### Data model (interface `ColumnQueryResult` and the enum rows of
    src/src/queries.ts).  The TS field `is_nullable : "YES" | "NO"` is a
    two-valued union and is embedded as a `Bool` (`true` for `"YES"`);
    `Nullable<string>` fields are embedded as `Option String`. -/

structure ColumnRow where
  table_name : String
  column_name : String
  data_type : String
  udt_name : String
  column_default : Option String
  is_nullable : Bool
  foreign_key_table : Option String
  foreign_key_column : Option String
  foreign_key_delete_rule : Option String
  foreign_key_update_rule : Option String
deriving DecidableEq, Repr

structure EnumRow where
  enum_name : String
  enum_values : List String
deriving DecidableEq, Repr

/-- The output mode: `FileType = "txt" | "html"`. -/
inductive FileType where
  | txt
  | html
deriving DecidableEq, Repr

/-! ### Constants of src/unnamed/part_000 -/

def TAB_LENGTH : Nat := 2

def COLUMN_PADDING : Nat := 2

def COMMENT_MAX_PRINT_WIDTH : Nat := 80

def ENUM_DATA_TYPE : String := "USER-DEFINED"

def TAB : String := "  "

/-- JS truthiness of a `Nullable<string>`: `null` and `""` are falsy. -/
def truthy : Option String → Bool
  | none => false
  | some s => s ≠ ""

/-! ### Markup helpers (src/src/utils.ts) -/

/-- The attribute text accumulated by `wrapElement` (string attributes,
    the only kind reached from the schema body). -/
def attrText (attributes : List (String × String)) : String :=
  attributes.foldl (fun acc kv => acc ++ " " ++ kv.1 ++ "=\"" ++ kv.2 ++ "\"") ""

/-- `wrapElement` of src/src/utils.ts. -/
def wrapElement (content tag : String) (attributes : List (String × String)) : String :=
  "<" ++ tag ++ attrText attributes ++ ">" ++ content ++ "</" ++ tag ++ ">"

/-- `wrapSpan` of src/src/utils.ts: the `data-tooltip` attribute is added
    only when the optional tooltip is truthy. -/
def wrapSpan (content className : String) (tooltip : Option String) : String :=
  wrapElement content "span"
    (("class", className) ::
      (match tooltip with
      | some t => if t = "" then [] else [("data-tooltip", t)]
      | none => []))

/-- `wrapSpanIfHTML` of src/unnamed/part_000: wrap in html mode, return
    the content verbatim in txt mode. -/
def wrapSpanIfHTML (ft : FileType) (content className : String) (tooltip : Option String) :
    String :=
  match ft with
  | .html => wrapSpan content className tooltip
  | .txt => content

def openCurlyBracket (ft : FileType) : String := wrapSpanIfHTML ft "\x7b" "punctuation" none

def closeCurlyBracket (ft : FileType) : String := wrapSpanIfHTML ft "\x7d" "punctuation" none

def openParens (ft : FileType) : String := wrapSpanIfHTML ft "(" "punctuation" none

def closeParens (ft : FileType) : String := wrapSpanIfHTML ft ")" "punctuation" none

/-! ### `splitString` of src/src/utils.ts -/

/-- The greedy word-packing loop of `splitString`: `cur` is the JS
    `currentString`, the list argument is the remaining words. -/
def goPack (maxLength : Nat) : List Char → List (List Char) → List (List Char)
  | cur, [] => [trimL cur]
  | cur, w :: ws =>
      if (cur ++ w).length ≤ maxLength then goPack maxLength (cur ++ ' ' :: w) ws
      else trimL cur :: goPack maxLength w ws

def splitStringL (input : List Char) (maxLength : Nat) : List (List Char) :=
  goPack maxLength [] (splitOnSpaceL input)

/-- `splitString` of src/src/utils.ts at the `String` level. -/
def splitString (input : String) (maxLength : Nat) : List String :=
  (splitStringL input.data maxLength).map fun l => ⟨l⟩

/-- `formatComment` of src/unnamed/part_000. -/
def formatComment (ft : FileType) (text : String) : String :=
  joinWith "\n"
    ((splitString text COMMENT_MAX_PRINT_WIDTH).map fun line =>
      wrapSpanIfHTML ft line "comment" none)

/-! ### Record / Set embedding.  JS plain objects keep string keys in
    insertion order; `Set` iterates in insertion order. -/

def lookupKey {α : Type} : List (String × α) → String → Option α
  | [], _ => none
  | (k, v) :: rest, key => if k = key then some v else lookupKey rest key

def setKey {α : Type} : List (String × α) → String → α → List (String × α)
  | [], key, v => [(key, v)]
  | (k, w) :: rest, key, v =>
      if k = key then (key, v) :: rest else (k, w) :: setKey rest key v

/-- `Set.prototype.add` under insertion-order iteration. -/
def setAdd (s : List String) (x : String) : List String :=
  if x ∈ s then s else s ++ [x]

/-- Sequencing of a fallible step over a list (a JS `forEach` whose body
    can throw): the first failure aborts the whole computation. -/
def optionMapList {α β : Type} (f : α → Option β) : List α → Option (List β)
  | [] => some []
  | a :: l =>
      match f a with
      | none => none
      | some b => (optionMapList f l).map (b :: ·)

/-! ### Schema normalizer (src/unnamed/part_000, lines 147-222) -/

/-- One step of the `enumsByName` loop: `enumsByName[enum_name] = enum_values`. -/
def enumsStep (m : List (String × List String)) (e : EnumRow) : List (String × List String) :=
  setKey m e.enum_name e.enum_values

/-- `enumsByName`: enum rows keyed by name (later rows overwrite). -/
def enumsByName (enums : List EnumRow) : List (String × List String) :=
  enums.foldl enumsStep []

/-- One step of the reference loop: for a user-defined column, create the
    set when absent and add the table name to it. -/
def refStep (m : List (String × List String)) (c : ColumnRow) : List (String × List String) :=
  if c.data_type = ENUM_DATA_TYPE then
    match lookupKey m c.udt_name with
    | some s => setKey m c.udt_name (setAdd s c.table_name)
    | none => setKey m c.udt_name (setAdd [] c.table_name)
  else m

/-- `enumTableReferences`: for each user-defined type name appearing on a
    column row, the set of tables referencing it. -/
def enumTableReferences (cols : List ColumnRow) : List (String × List String) :=
  cols.foldl refStep []

/-- The comparator passed to `columns.sort` (lines 200-207). -/
def cmpNull (a b : ColumnRow) : Int :=
  if a.is_nullable = true ∧ b.is_nullable = false then 1
  else if b.is_nullable = true ∧ a.is_nullable = false then -1
  else 0

def leNull (a b : ColumnRow) : Prop := cmpNull a b ≤ 0

instance : DecidableRel leNull := fun a b => inferInstanceAs (Decidable (cmpNull a b ≤ 0))

/-- `columns.sort(comparator)`.  The JS runtime guarantees a stable sort,
    and for a consistent comparator the stable sorted result is unique,
    so any stable sort embeds it; we use insertion sort. -/
def sortColumns (cols : List ColumnRow) : List ColumnRow :=
  List.insertionSort leNull cols

/-- One step of the grouping loop: `schema[column.table_name].push(column)`
    (creating the entry when absent). -/
def insertColumnRow (m : List (String × List ColumnRow)) (c : ColumnRow) :
    List (String × List ColumnRow) :=
  match lookupKey m c.table_name with
  | some cs => setKey m c.table_name (cs ++ [c])
  | none => setKey m c.table_name [c]

/-- The normalized schema: columns sorted by nullability, then grouped by
    table name in first-seen order. -/
def schemaGrouped (cols : List ColumnRow) : List (String × List ColumnRow) :=
  (sortColumns cols).foldl insertColumnRow []

/-- The column list rendered for table `t`. -/
def tableColsOf (cols : List ColumnRow) (t : String) : List ColumnRow :=
  (lookupKey (schemaGrouped cols) t).getD []

/-- All columns in the order the width loop visits them
    (`Object.values(schema)` flattened). -/
def allSchemaCols (cols : List ColumnRow) : List ColumnRow :=
  ((schemaGrouped cols).map Prod.snd).flatten

/-- The displayed type: the udt name for user-defined columns, the
    declared data type otherwise. -/
def displayType (c : ColumnRow) : String :=
  if c.data_type = ENUM_DATA_TYPE then c.udt_name else c.data_type

/-! ### Layout widths (src/unnamed/part_000, lines 224-253) -/

/-- Column-name length, plus one for the nullability marker. -/
def nullableNameLength (c : ColumnRow) : Nat :=
  if c.is_nullable then c.column_name.length + 1 else c.column_name.length

/-- One iteration of the width loop, transcribed from the source: note
    that the default-width guard compares the raw default length against
    the accumulator, while the update stores length + `"DEFAULT".length`. -/
def widthsStep (acc : Nat × Nat × Nat) (c : ColumnRow) : Nat × Nat × Nat :=
  let n := if nullableNameLength c > acc.1 then nullableNameLength c else acc.1
  let t := if (displayType c).length > acc.2.1 then (displayType c).length else acc.2.1
  let d :=
    match c.column_default with
    | some s => if s ≠ "" ∧ s.length > acc.2.2 then s.length + "DEFAULT".length else acc.2.2
    | none => acc.2.2
  (n, t, d)

def widths (cols : List ColumnRow) : Nat × Nat × Nat :=
  (allSchemaCols cols).foldl widthsStep (0, 0, 0)

def longestColumnName (cols : List ColumnRow) : Nat := (widths cols).1

def longestColumnType (cols : List ColumnRow) : Nat := (widths cols).2.1

def longestColumnDefault (cols : List ColumnRow) : Nat := (widths cols).2.2

/-! ### Column line rendering (src/unnamed/part_000, lines 264-368) -/

/-- The decorated nullability marker (or `""` for non-nullable columns). -/
def formattedColumnNullable (ft : FileType) (c : ColumnRow) : String :=
  if c.is_nullable then
    wrapSpanIfHTML ft "?" "columnProperty bold" (some (c.column_name ++ " is NULLABLE."))
  else ""

/-- The padded name field before decoration: name, marker when nullable,
    right-padded to the global name width plus `COLUMN_PADDING`. -/
def paddedColumnName (c : ColumnRow) (nameWidth : Nat) : String :=
  padEnd (c.column_name ++ (if c.is_nullable then "?" else "")) (nameWidth + COLUMN_PADDING)

/-- The rendered name field: the padded name is wrapped (html) or kept
    (txt), then the first "?" is replaced by the decorated marker. -/
def formattedColumnName (ft : FileType) (c : ColumnRow) (nameWidth : Nat) : String :=
  replaceFirst (wrapSpanIfHTML ft (paddedColumnName c nameWidth) "columnName" none) "?"
    (formattedColumnNullable ft c)

def paddedColumnType (c : ColumnRow) (typeWidth : Nat) : String :=
  padEnd (displayType c) (typeWidth + COLUMN_PADDING)

def formattedColumnType (ft : FileType) (c : ColumnRow) (typeWidth : Nat) : String :=
  wrapSpanIfHTML ft (paddedColumnType c typeWidth) "columnType" none

/-- The `DEFAULT value` segment (present when the default is truthy). -/
def defaultClause (ft : FileType) (c : ColumnRow) : String :=
  match c.column_default with
  | some s =>
      if s = "" then ""
      else
        wrapSpanIfHTML ft "DEFAULT" "columnProperty" none ++ " " ++
          wrapSpanIfHTML ft s "text" none ++ " "
  | none => ""

/-- The `REFERENCES table(column)` segment (present when both foreign-key
    fields are truthy). -/
def referenceClause (ft : FileType) (c : ColumnRow) : String :=
  if truthy c.foreign_key_table ∧ truthy c.foreign_key_column then
    wrapSpanIfHTML ft "REFERENCES" "columnProperty" none ++ " " ++
      wrapSpanIfHTML ft (c.foreign_key_table.getD "") "tableName" none ++
      openParens ft ++ wrapSpanIfHTML ft (c.foreign_key_column.getD "") "text" none ++
      closeParens ft ++ " "
  else ""

/-- The `ON DELETE rule` segment (present when the rule is truthy and is
    not `"NO ACTION"`). -/
def deleteRuleClause (ft : FileType) (c : ColumnRow) : String :=
  match c.foreign_key_delete_rule with
  | some s =>
      if s ≠ "" ∧ s ≠ "NO ACTION" then
        wrapSpanIfHTML ft "ON DELETE" "columnProperty" none ++ " " ++
          wrapSpanIfHTML ft s "text" none ++ " "
      else ""
  | none => ""

/-- The `ON UPDATE rule` segment (present when the rule is truthy and is
    not `"NO ACTION"`). -/
def updateRuleClause (ft : FileType) (c : ColumnRow) : String :=
  match c.foreign_key_update_rule with
  | some s =>
      if s ≠ "" ∧ s ≠ "NO ACTION" then
        wrapSpanIfHTML ft "ON UPDATE" "columnProperty" none ++ " " ++
          wrapSpanIfHTML ft s "text" none ++ " "
      else ""
  | none => ""

/-- The full column line (before the leading tab and trailing newline). -/
def columnLine (ft : FileType) (c : ColumnRow) (nameWidth typeWidth : Nat) : String :=
  formattedColumnName ft c nameWidth ++ formattedColumnType ft c typeWidth ++
    defaultClause ft c ++ referenceClause ft c ++ deleteRuleClause ft c ++
    updateRuleClause ft c

/-! ### Block and body assembly (src/unnamed/part_000, lines 165-371) -/

/-- JS default string comparison, on the character lists (shown below to
    coincide with the standard `String` order). -/
def strLe (a b : String) : Prop := ¬ b.data < a.data

instance : DecidableRel strLe := fun a b =>
  inferInstanceAs (Decidable (¬ b.data < a.data))

/-- `Object.keys(x).sort()`: JS default string sort is lexicographic by
    code units; the keys are distinct, so any sorted order matches; we
    use insertion sort. -/
def sortStrs (l : List String) : List String :=
  List.insertionSort strLe l

def sortedTableNames (cols : List ColumnRow) : List String :=
  sortStrs ((schemaGrouped cols).map Prod.fst)

def tableBlockLines (ft : FileType) (cols : List ColumnRow) (t : String) : List String :=
  (tableColsOf cols t).map fun c =>
    TAB ++ columnLine ft c (longestColumnName cols) (longestColumnType cols) ++ "\n"

def tableBlockText (ft : FileType) (cols : List ColumnRow) (t : String) : String :=
  wrapSpanIfHTML ft "table" "tableType" none ++ " " ++
    wrapSpanIfHTML ft t "tableName" none ++ " " ++ openCurlyBracket ft ++ "\n" ++
    joinWith "" (tableBlockLines ft cols t) ++ closeCurlyBracket ft ++ "\n\n"

def tableBlocksText (ft : FileType) (cols : List ColumnRow) : String :=
  joinWith "" ((sortedTableNames cols).map (tableBlockText ft cols))

def sortedEnumNames (enums : List EnumRow) : List String :=
  sortStrs ((enumsByName enums).map Prod.fst)

/-- The data consulted for one enum block.  `Array.from(undefined)` (an
    enum row referenced by no column) throws in the source and is
    embedded as `none`; the value lookup can likewise only fail on an
    absent key, which would also throw (`undefined.forEach`). -/
def enumEntry (cols : List ColumnRow) (enums : List EnumRow) (name : String) :
    Option (String × List String × List String) :=
  match lookupKey (enumTableReferences cols) name, lookupKey (enumsByName enums) name with
  | some refs, some vals => some (name, refs, vals)
  | _, _ => none

def enumEntriesOpt (cols : List ColumnRow) (enums : List EnumRow) :
    Option (List (String × List String × List String)) :=
  optionMapList (enumEntry cols enums) (sortedEnumNames enums)

def enumBlockText (ft : FileType) (name : String) (refs vals : List String) : String :=
  formatComment ft ("-- Referenced in " ++ joinWith ", " refs ++ ".") ++ "\n" ++
    wrapSpanIfHTML ft "enum" "tableType" none ++ " " ++
    wrapSpanIfHTML ft name "tableName" none ++ " " ++ openCurlyBracket ft ++ "\n" ++
    joinWith "" (vals.map fun v => TAB ++ wrapSpanIfHTML ft v "columnName" none ++ "\n") ++
    closeCurlyBracket ft ++ "\n\n"

/-- The schema body (`schemaString`): enum blocks in sorted name order,
    then table blocks in sorted name order; `none` when an enum block
    computation throws. -/
def schemaStringOpt (ft : FileType) (cols : List ColumnRow) (enums : List EnumRow) :
    Option String :=
  (enumEntriesOpt cols enums).map fun entries =>
    joinWith "" (entries.map fun e => enumBlockText ft e.1 e.2.1 e.2.2) ++
      tableBlocksText ft cols

/-- The names of the body blocks in emission order. -/
def bodyBlockNames (cols : List ColumnRow) (enums : List EnumRow) : Option (List String) :=
  (enumEntriesOpt cols enums).map fun entries =>
    entries.map (fun e => e.1) ++ sortedTableNames cols

/-- The txt document (`txtString`, lines 407-414): the generation-date
    comment line, the attribution line, the nullability note, the body.
    `dateStr` is `FORMATTED_CURRENT_DATE`, captured from the clock at
    startup (line 44). -/
def generateTxt (cols : List ColumnRow) (enums : List EnumRow) (dateStr : String) :
    Option String :=
  (schemaStringOpt .txt cols enums).map fun body =>
    "-- This file was generated on " ++ dateStr ++ "." ++ "\n" ++
      "-- Made with pretty-postgres: https://github.com/atul-jalan/pretty-postgres" ++
      "\n\n" ++
      "-- Note: A \x27?\x27 after a column name indicates that the column is nullable." ++
      "\n\n" ++ body

/-- Everything after the first line of a document. -/
def dropFirstLine (s : String) : String :=
  ⟨(s.data.dropWhile fun c => c != '\n').drop 1⟩

/-- Remove markup: drop every maximal `<`...`>` region. -/
def stripTagsL : Bool → List Char → List Char
  | _, [] => []
  | false, c :: cs => if c = '<' then stripTagsL true cs else c :: stripTagsL false cs
  | true, c :: cs => if c = '>' then stripTagsL false cs else stripTagsL true cs

def stripTags (s : String) : String :=
  ⟨stripTagsL false s.data⟩

/-! ### Auxiliary definitions used by the statements and proofs -/

def spaces (n : Nat) : String :=
  ⟨List.replicate n ' '⟩

/-- The decorated nullability-marker span for a column name. -/
def nullableMarkerSpan (name : String) : String :=
  wrapSpan "?" "columnProperty bold" (some (name ++ " is NULLABLE."))

/-- Modelled from the claim (C2), for comparison with the source
    computation: the true global maximum, over all columns having a
    default value, of default-text length plus the length of the literal
    keyword `"DEFAULT"`; zero when no column has a default. -/
def defaultWidthClaimed (cols : List ColumnRow) : Nat :=
  ((allSchemaCols cols).filterMap (fun c => c.column_default)).foldl
    (fun acc s => Nat.max acc (s.length + "DEFAULT".length)) 0

/-- A word of a comment: nonempty and whitespace-free. -/
abbrev PlainWordL (w : List Char) : Prop :=
  w ≠ [] ∧ ∀ c ∈ w, c.isWhitespace = false

abbrev PlainWord (w : String) : Prop :=
  PlainWordL w.data

/-- The text following the packed words of one line when they are joined
    back onto the remaining words. -/
def joinTailL : List (List Char) → List Char
  | [] => []
  | w :: ws => ' ' :: intercalateL [' '] (w :: ws)

/-- All length checks of the packing loop pass (no line break happens). -/
def fitsAll (maxLength : Nat) : List Char → List (List Char) → Prop
  | _, [] => True
  | cur, w :: ws => (cur ++ w).length ≤ maxLength ∧ fitsAll maxLength (cur ++ ' ' :: w) ws

abbrev NoNewlineStr (s : String) : Prop :=
  ∀ ch ∈ s.data, ch ≠ '\n'

/-- A string free of the markup delimiters. -/
abbrev TagFreeStr (s : String) : Prop :=
  ∀ ch ∈ s.data, ch ≠ '<' ∧ ch ≠ '>'

abbrev TagFreeOpt (o : Option String) : Prop :=
  ∀ s, o = some s → TagFreeStr s

abbrev NoGtStr (s : String) : Prop :=
  ∀ ch ∈ s.data, ch ≠ '>'

/-- All string fields of a column row are free of markup delimiters. -/
abbrev RowTagFree (c : ColumnRow) : Prop :=
  TagFreeStr c.table_name ∧ TagFreeStr c.column_name ∧ TagFreeStr c.data_type ∧
    TagFreeStr c.udt_name ∧ TagFreeOpt c.column_default ∧ TagFreeOpt c.foreign_key_table ∧
    TagFreeOpt c.foreign_key_column ∧ TagFreeOpt c.foreign_key_delete_rule ∧
    TagFreeOpt c.foreign_key_update_rule

abbrev EnumRowTagFree (e : EnumRow) : Prop :=
  TagFreeStr e.enum_name ∧ ∀ v ∈ e.enum_values, TagFreeStr v

/-- A column name free of the `GetSubstitution` trigger character `$`
    (the name is embedded in the marker tooltip, which is the replacement
    string of the source's `replace` call). -/
abbrev NoDollarName (c : ColumnRow) : Prop :=
  ∀ ch ∈ c.column_name.data, ch ≠ '$'

/-- `s` strips to `t`: removing markup from `s` leaves `t`, uniformly in
    any continuation (the strip scanner ends outside a tag). -/
def StripsTo (s t : String) : Prop :=
  ∀ r : List Char, stripTagsL false (s.data ++ r) = t.data ++ stripTagsL false r

/-! ### Concrete inputs used by counterexamples and witnesses -/

def col2a : ColumnRow := ⟨"t", "a", "integer", "int4", some "aaaaa", false, none, none, none, none⟩

def col2b : ColumnRow :=
  ⟨"t", "b", "integer", "int4", some "aaaaaaaaaa", false, none, none, none, none⟩

def row5a : ColumnRow := ⟨"t", "c", "text", "text", none, false, none, none, none, none⟩

def row5b : ColumnRow := ⟨"t", "c", "text", "text", none, false, some "", some "id", none, none⟩

def wordA63 : String := ⟨List.replicate 63 'a'⟩

def wordB15 : String := ⟨List.replicate 15 'b'⟩

/-- A reference comment for two tables whose names make the greedy packer
    emit an 81-character second line. -/
def refComment6 : String := "-- Referenced in " ++ joinWith ", " [wordA63, wordB15] ++ "."

def line6 : String := wordA63 ++ ", " ++ wordB15 ++ "."

def cols7 : List ColumnRow := [⟨"t", "c", "USER-DEFINED", "foo", none, false, none, none, none, none⟩]

def enums7 : List EnumRow := [⟨"bar", []⟩]

def cols7w : List ColumnRow := [⟨"t", "c", "USER-DEFINED", "st", none, false, none, none, none, none⟩]

def enums7w : List EnumRow := [⟨"st", ["on", "off"]⟩]

def row10 : ColumnRow := ⟨"t", "a?b", "text", "text", none, true, none, none, none, none⟩

/-- Two non-nullable columns of equal name length, one name containing
    the marker character: the rendered plain-mode name fields then have
    different lengths. -/
def col3a : ColumnRow := ⟨"t", "a?b", "text", "text", none, false, none, none, none, none⟩

def col3b : ColumnRow := ⟨"t", "xyz", "text", "text", none, false, none, none, none, none⟩

def cols3 : List ColumnRow := [col3a, col3b]

/-- A tag-free column name containing the dollar-backquote substitution
    pattern of `GetSubstitution`. -/
def name9 : String := ⟨['x', '$', backquoteChar]⟩

def cols9 : List ColumnRow := [⟨"t", name9, "text", "text", none, true, none, none, none, none⟩]

def row10w : ColumnRow := ⟨"t", "email", "text", "text", none, true, none, none, none, none⟩

def sampleCols : List ColumnRow :=
  [⟨"users", "id", "integer", "int4", none, false, none, none, none, none⟩,
    ⟨"users", "email", "text", "text", none, true, none, none, none, none⟩]

def cols4w : List ColumnRow :=
  [⟨"b", "x", "text", "text", none, false, none, none, none, none⟩,
    ⟨"a", "y", "text", "text", none, false, none, none, none, none⟩]

/-! ## Basic string lemmas -/

theorem data_mk (l : List Char) : (String.mk l).data = l := rfl

theorem append_ne_empty_left {a : String} (b : String) (h : a ≠ "") : a ++ b ≠ "" := by
  intro hc
  apply h
  apply String.ext
  have hd := congrArg String.data hc
  rw [String.data_append] at hd
  exact (List.append_eq_nil.mp hd).1

/-! ## C2: the layout widths -/

/-- C2 (code bug evaluation): at two columns of one table whose defaults
    are 5 and 10 characters long (in that order), the source width loop
    yields `defaultWidth = 12`, while the claimed true global maximum of
    default length + `"DEFAULT".length` is 17: the guard compares the raw
    default length against an accumulator that already includes the
    keyword length, so the later, longer default fails to update it. -/
theorem C2_defaultWidth_eval :
    longestColumnDefault [col2a, col2b] = 12 ∧ defaultWidthClaimed [col2a, col2b] = 17 := by
  decide

/-! ## C5: clause presence conditions -/

/-- C5 (counterexample): a row with no foreign-key data has its delete-rule
    clause omitted although the rule does not equal `"NO ACTION"`, and a row
    whose foreign-key fields are present but empty has no reference clause. -/
theorem C5_counterexample :
    (deleteRuleClause .txt row5a = "" ∧ row5a.foreign_key_delete_rule ≠ some "NO ACTION") ∧
      referenceClause .txt row5b = "" ∧ row5b.foreign_key_table.isSome ∧
      row5b.foreign_key_column.isSome := by
  decide

/-! ## C8: determinism modulo the generation date -/

/-- C8 (counterexample): the rendered document depends on the formatted
    generation date captured from the clock, hence two runs over the same
    rows and mode need not produce identical documents. -/
theorem C8_counterexample :
    generateTxt [] [] "1/1/2024" ≠ generateTxt [] [] "2/2/2024" := by
  decide

/-! ## C10: the nullability marker -/

/-- C10 (counterexample): for a nullable column whose name itself contains
    the marker character (`"a?b"`), the replacement wraps the first `?`
    inside the name; the appended marker is emitted bare, not in its own
    tooltip span. -/
theorem C10_counterexample :
    formattedColumnName .html row10 4 =
        "<span class=\"columnName\">a" ++ nullableMarkerSpan "a?b" ++ "b?  </span>" ∧
      formattedColumnName .html row10 4 ≠
        "<span class=\"columnName\">a?b" ++ nullableMarkerSpan "a?b" ++ "  </span>" := by
  decide

/-! ## C6: comment wrapping (counterexample) -/

/-- C6 (counterexample): a reference comment of 98 characters is wrapped
    into a second line of 81 characters (the greedy check does not count
    the joining space), exceeding the 80-unit maximum; moreover in plain
    mode that second line carries no leading comment marker. -/
theorem C6_counterexample :
    80 < refComment6.length ∧
      splitString refComment6 80 = ["-- Referenced in", line6] ∧
      line6.length = 81 ∧
      line6.data.take 2 ≠ "--".data := by
  decide

theorem truthy_iff (o : Option String) : truthy o = true ↔ ∃ s, o = some s ∧ s ≠ "" := by
  cases o with
  | none => simp [truthy]
  | some s => simp [truthy]

/-- C5 (amended): the reference clause is present exactly when both
    foreign-key fields are present and nonempty, and each rule clause is
    present exactly when the respective rule is present, nonempty, and
    differs from the no-op default `"NO ACTION"`. -/
theorem C5_clause_conditions (ft : FileType) (c : ColumnRow) :
    (referenceClause ft c ≠ "" ↔
        (∃ t, c.foreign_key_table = some t ∧ t ≠ "") ∧
          ∃ u, c.foreign_key_column = some u ∧ u ≠ "") ∧
      (deleteRuleClause ft c ≠ "" ↔
        ∃ s, c.foreign_key_delete_rule = some s ∧ s ≠ "" ∧ s ≠ "NO ACTION") ∧
      (updateRuleClause ft c ≠ "" ↔
        ∃ s, c.foreign_key_update_rule = some s ∧ s ≠ "" ∧ s ≠ "NO ACTION") := by
  refine ⟨?_, ?_, ?_⟩
  · unfold referenceClause
    split_ifs with h
    · have hR : wrapSpanIfHTML ft "REFERENCES" "columnProperty" none ≠ "" := by
        cases ft <;> decide
      constructor
      · intro _
        exact ⟨(truthy_iff _).mp h.1, (truthy_iff _).mp h.2⟩
      · intro _
        exact append_ne_empty_left _ (append_ne_empty_left _ (append_ne_empty_left _
          (append_ne_empty_left _ (append_ne_empty_left _ (append_ne_empty_left _ hR)))))
    · simp only [ne_eq, not_true_eq_false, false_iff]
      intro hc
      exact h ⟨(truthy_iff _).mpr hc.1, (truthy_iff _).mpr hc.2⟩
  · unfold deleteRuleClause
    cases hr : c.foreign_key_delete_rule with
    | none => simp
    | some s =>
      dsimp only
      split_ifs with h
      · have hD : wrapSpanIfHTML ft "ON DELETE" "columnProperty" none ≠ "" := by
          cases ft <;> decide
        simp only [ne_eq, Option.some.injEq]
        constructor
        · intro _
          exact ⟨s, rfl, h⟩
        · intro _
          exact append_ne_empty_left _ (append_ne_empty_left _ (append_ne_empty_left _ hD))
      · simp only [ne_eq, not_true_eq_false, false_iff, Option.some.injEq, not_exists, not_and]
        intro x hx h1 h2
        exact h ⟨by simpa [hx] using h1, by simpa [hx] using h2⟩
  · unfold updateRuleClause
    cases hr : c.foreign_key_update_rule with
    | none => simp
    | some s =>
      dsimp only
      split_ifs with h
      · have hU : wrapSpanIfHTML ft "ON UPDATE" "columnProperty" none ≠ "" := by
          cases ft <;> decide
        simp only [ne_eq, Option.some.injEq]
        constructor
        · intro _
          exact ⟨s, rfl, h⟩
        · intro _
          exact append_ne_empty_left _ (append_ne_empty_left _ (append_ne_empty_left _ hU))
      · simp only [ne_eq, not_true_eq_false, false_iff, Option.some.injEq, not_exists, not_and]
        intro x hx h1 h2
        exact h ⟨by simpa [hx] using h1, by simpa [hx] using h2⟩

theorem dropThroughNL (l r : List Char) (h : ∀ c ∈ l, c ≠ '\n') :
    ((l ++ '\n' :: r).dropWhile fun c => c != '\n').drop 1 = r := by
  induction l with
  | nil => simp [List.dropWhile]
  | cons c cs ih =>
    have hc : (c != '\n') = true := by
      simpa using h c (List.mem_cons_self c cs)
    simp only [List.cons_append, List.dropWhile_cons, hc, if_true]
    exact ih fun x hx => h x (List.mem_cons_of_mem c hx)

theorem dropFirstLine_append (a b : String) (h : ∀ c ∈ a.data, c ≠ '\n') :
    dropFirstLine (a ++ "\n" ++ b) = b := by
  apply String.ext
  have hd : (a ++ "\n" ++ b).data = a.data ++ '\n' :: b.data := by
    simp [String.data_append]
  show (((a ++ "\n" ++ b).data).dropWhile fun c => c != '\n').drop 1 = b.data
  rw [hd]
  exact dropThroughNL a.data b.data h

/-- C8 (amended): for a fixed generation-date string the renderer is a
    pure function of the rows; the date only affects the first document
    line, so plain-mode documents produced from the same rows with any
    two newline-free dates agree after their first line. -/
theorem C8_date_only_in_first_line (cols : List ColumnRow) (enums : List EnumRow)
    (d1 d2 : String) (h1 : NoNewlineStr d1) (h2 : NoNewlineStr d2) :
    (generateTxt cols enums d1).map dropFirstLine =
      (generateTxt cols enums d2).map dropFirstLine := by
  unfold generateTxt
  cases hs : schemaStringOpt .txt cols enums with
  | none => rfl
  | some body =>
    simp only [Option.map_some']
    congr 1
    have key : ∀ d : String, NoNewlineStr d →
        dropFirstLine ("-- This file was generated on " ++ d ++ "." ++ "\n" ++
            "-- Made with pretty-postgres: https://github.com/atul-jalan/pretty-postgres" ++
            "\n\n" ++
            "-- Note: A \x27?\x27 after a column name indicates that the column is nullable." ++
            "\n\n" ++ body) =
          "-- Made with pretty-postgres: https://github.com/atul-jalan/pretty-postgres" ++
            ("\n\n" ++
              ("-- Note: A \x27?\x27 after a column name indicates that the column is nullable." ++
                ("\n\n" ++ body))) := by
      intro d hd
      have hshape : "-- This file was generated on " ++ d ++ "." ++ "\n" ++
            "-- Made with pretty-postgres: https://github.com/atul-jalan/pretty-postgres" ++
            "\n\n" ++
            "-- Note: A \x27?\x27 after a column name indicates that the column is nullable." ++
            "\n\n" ++ body =
          ("-- This file was generated on " ++ d ++ ".") ++ "\n" ++
            ("-- Made with pretty-postgres: https://github.com/atul-jalan/pretty-postgres" ++
              ("\n\n" ++
                ("-- Note: A \x27?\x27 after a column name indicates that the column is nullable." ++
                  ("\n\n" ++ body)))) := by
        apply String.ext
        simp [String.data_append]
      rw [hshape]
      apply dropFirstLine_append
      intro c hc
      simp only [String.data_append, List.mem_append] at hc
      rcases hc with (hc | hc) | hc
      · revert c
        decide
      · exact hd c hc
      · revert c
        decide
    rw [key d1 h1, key d2 h2]

/-- C8 (witness): the amended determinism statement at a concrete input. -/
theorem C8_witness :
    NoNewlineStr "1/1/2024" ∧ NoNewlineStr "2/2/2024" ∧
      (generateTxt [] [] "1/1/2024").map dropFirstLine =
        (generateTxt [] [] "2/2/2024").map dropFirstLine :=
  ⟨by decide, by decide,
    C8_date_only_in_first_line [] [] "1/1/2024" "2/2/2024" (by decide) (by decide)⟩

/-! ## C1: stable partition of each table's columns by nullability -/

theorem leNull_of_nonnull {c b : ColumnRow} (h : c.is_nullable = false) : leNull c b := by
  unfold leNull cmpNull
  split_ifs with h1 h2
  · rw [h] at h1
    exact absurd h1.1 (by decide)
  · decide
  · decide

theorem not_leNull {c b : ColumnRow} (hc : c.is_nullable = true) (hb : b.is_nullable = false) :
    ¬ leNull c b := by
  unfold leNull cmpNull
  rw [if_pos ⟨hc, hb⟩]
  decide

theorem leNull_of_both_null {c b : ColumnRow} (hc : c.is_nullable = true)
    (hb : b.is_nullable = true) : leNull c b := by
  unfold leNull cmpNull
  have h1 : ¬(c.is_nullable = true ∧ b.is_nullable = false) := by simp [hb]
  have h2 : ¬(b.is_nullable = true ∧ c.is_nullable = false) := by simp [hc]
  rw [if_neg h1, if_neg h2]

theorem orderedInsert_nonnull (c : ColumnRow) (h : c.is_nullable = false)
    (l : List ColumnRow) : List.orderedInsert leNull c l = c :: l := by
  cases l with
  | nil => rfl
  | cons b t =>
    unfold List.orderedInsert
    rw [if_pos (leNull_of_nonnull h)]

theorem orderedInsert_nullable (c : ColumnRow) (hc : c.is_nullable = true) :
    ∀ (l₁ l₂ : List ColumnRow), (∀ x ∈ l₁, x.is_nullable = false) →
      (∀ x ∈ l₂, x.is_nullable = true) →
      List.orderedInsert leNull c (l₁ ++ l₂) = l₁ ++ c :: l₂ := by
  intro l₁
  induction l₁ with
  | nil =>
    intro l₂ _ h₂
    cases l₂ with
    | nil => rfl
    | cons b t =>
      simp only [List.nil_append]
      unfold List.orderedInsert
      rw [if_pos (leNull_of_both_null hc (h₂ b (List.mem_cons_self b t)))]
  | cons a l ih =>
    intro l₂ h₁ h₂
    have ha : a.is_nullable = false := h₁ a (List.mem_cons_self a l)
    simp only [List.cons_append]
    unfold List.orderedInsert
    rw [if_neg (not_leNull hc ha), ih l₂ (fun x hx => h₁ x (List.mem_cons_of_mem a hx)) h₂]

theorem sortColumns_partition (cols : List ColumnRow) :
    sortColumns cols =
      cols.filter (fun c => !c.is_nullable) ++ cols.filter (fun c => c.is_nullable) := by
  induction cols with
  | nil => rfl
  | cons c rest ih =>
    unfold sortColumns at *
    simp only [List.insertionSort]
    rw [ih]
    cases hc : c.is_nullable with
    | false =>
      rw [orderedInsert_nonnull c hc]
      simp [List.filter_cons, hc]
    | true =>
      rw [orderedInsert_nullable c hc _ _ ?_ ?_]
      · simp [List.filter_cons, hc]
      · intro x hx
        have := (List.mem_filter.mp hx).2
        simpa using this
      · intro x hx
        exact (List.mem_filter.mp hx).2

theorem lookupKey_setKey {α : Type} (m : List (String × α)) (k t : String) (v : α) :
    lookupKey (setKey m k v) t = if k = t then some v else lookupKey m t := by
  induction m with
  | nil => simp [setKey, lookupKey]
  | cons p rest ih =>
    obtain ⟨k', v'⟩ := p
    simp only [setKey]
    by_cases h : k' = k
    · rw [if_pos h]
      subst h
      simp only [lookupKey]
      by_cases ht : k' = t
      · simp [ht]
      · simp [ht]
    · rw [if_neg h]
      simp only [lookupKey]
      by_cases ht : k' = t
      · have hkt : k ≠ t := fun hk => h (ht.trans hk.symm)
        simp [ht, hkt]
      · simp [ht, ih]

theorem lookupKey_insertColumnRow (m : List (String × List ColumnRow)) (c : ColumnRow)
    (t : String) :
    lookupKey (insertColumnRow m c) t =
      if c.table_name = t then some ((lookupKey m c.table_name).getD [] ++ [c])
      else lookupKey m t := by
  unfold insertColumnRow
  cases hm : lookupKey m c.table_name with
  | none => rw [lookupKey_setKey]; simp [hm]
  | some cs => rw [lookupKey_setKey]; simp [hm]

theorem foldl_insertColumnRow_lookup (l : List ColumnRow) :
    ∀ (m : List (String × List ColumnRow)) (t : String),
      (lookupKey (l.foldl insertColumnRow m) t).getD [] =
        (lookupKey m t).getD [] ++ l.filter (fun c => c.table_name == t) := by
  induction l with
  | nil => intro m t; simp
  | cons c l ih =>
    intro m t
    simp only [List.foldl_cons]
    rw [ih, lookupKey_insertColumnRow]
    by_cases h : c.table_name = t
    · rw [if_pos h]
      subst h
      simp [List.filter_cons]
    · rw [if_neg h]
      simp [List.filter_cons, h]

theorem tableColsOf_eq (cols : List ColumnRow) (t : String) :
    tableColsOf cols t = (sortColumns cols).filter (fun c => c.table_name == t) := by
  unfold tableColsOf schemaGrouped
  rw [foldl_insertColumnRow_lookup]
  simp [lookupKey]

/-- C1: within each table, the rendered column lines list every
    non-nullable column (in input order) before every nullable column
    (in input order): a stable partition by nullability, not a full sort. -/
theorem C1_stable_partition (ft : FileType) (cols : List ColumnRow) (t : String) :
    tableBlockLines ft cols t =
      (((cols.filter fun c => c.table_name == t).filter fun c => !c.is_nullable) ++
          ((cols.filter fun c => c.table_name == t).filter fun c => c.is_nullable)).map
        (fun c => TAB ++ columnLine ft c (longestColumnName cols) (longestColumnType cols) ++
          "\n") := by
  unfold tableBlockLines
  congr 1
  rw [tableColsOf_eq, sortColumns_partition, List.filter_append]
  congr 1 <;> rw [List.filter_comm]

/-! ## C3: the padded fields reach the global widths plus the constant -/

theorem widthsStep_fst_le (acc : Nat × Nat × Nat) (c : ColumnRow) :
    acc.1 ≤ (widthsStep acc c).1 := by
  unfold widthsStep
  dsimp only
  split_ifs with h
  · exact Nat.le_of_lt h
  · exact Nat.le_refl _

theorem widthsStep_fst_ge (acc : Nat × Nat × Nat) (c : ColumnRow) :
    nullableNameLength c ≤ (widthsStep acc c).1 := by
  unfold widthsStep
  dsimp only
  split_ifs with h
  · exact Nat.le_refl _
  · exact Nat.le_of_not_lt h

theorem widthsStep_snd_le (acc : Nat × Nat × Nat) (c : ColumnRow) :
    acc.2.1 ≤ (widthsStep acc c).2.1 := by
  unfold widthsStep
  dsimp only
  split_ifs with h
  · exact Nat.le_of_lt h
  · exact Nat.le_refl _

theorem widthsStep_snd_ge (acc : Nat × Nat × Nat) (c : ColumnRow) :
    (displayType c).length ≤ (widthsStep acc c).2.1 := by
  unfold widthsStep
  dsimp only
  split_ifs with h
  · exact Nat.le_refl _
  · exact Nat.le_of_not_lt h

theorem foldl_widthsStep_fst_mono (l : List ColumnRow) :
    ∀ acc : Nat × Nat × Nat, acc.1 ≤ (l.foldl widthsStep acc).1 := by
  induction l with
  | nil => intro acc; exact Nat.le_refl _
  | cons c t ih =>
    intro acc
    exact Nat.le_trans (widthsStep_fst_le acc c) (ih (widthsStep acc c))

theorem foldl_widthsStep_snd_mono (l : List ColumnRow) :
    ∀ acc : Nat × Nat × Nat, acc.2.1 ≤ (l.foldl widthsStep acc).2.1 := by
  induction l with
  | nil => intro acc; exact Nat.le_refl _
  | cons c t ih =>
    intro acc
    exact Nat.le_trans (widthsStep_snd_le acc c) (ih (widthsStep acc c))

theorem foldl_widthsStep_fst_ge (l : List ColumnRow) :
    ∀ (acc : Nat × Nat × Nat) (c : ColumnRow), c ∈ l →
      nullableNameLength c ≤ (l.foldl widthsStep acc).1 := by
  induction l with
  | nil => intro _ _ h; cases h
  | cons b t ih =>
    intro acc c hc
    rcases List.mem_cons.mp hc with rfl | hc
    · exact Nat.le_trans (widthsStep_fst_ge acc c) (foldl_widthsStep_fst_mono t _)
    · exact ih (widthsStep acc b) c hc

theorem foldl_widthsStep_snd_ge (l : List ColumnRow) :
    ∀ (acc : Nat × Nat × Nat) (c : ColumnRow), c ∈ l →
      (displayType c).length ≤ (l.foldl widthsStep acc).2.1 := by
  induction l with
  | nil => intro _ _ h; cases h
  | cons b t ih =>
    intro acc c hc
    rcases List.mem_cons.mp hc with rfl | hc
    · exact Nat.le_trans (widthsStep_snd_ge acc c) (foldl_widthsStep_snd_mono t _)
    · exact ih (widthsStep acc b) c hc

theorem padEnd_length (s : String) (n : Nat) (h : s.length ≤ n) : (padEnd s n).length = n := by
  unfold padEnd
  rw [String.length_append]
  have hr : (⟨List.replicate (n - s.length) ' '⟩ : String).length = n - s.length := by
    show (List.replicate (n - s.length) ' ').length = n - s.length
    exact List.length_replicate _ _
  rw [hr]
  omega

theorem marker_length (c : ColumnRow) :
    (c.column_name ++ (if c.is_nullable then "?" else "")).length = nullableNameLength c := by
  unfold nullableNameLength
  cases hc : c.is_nullable <;> simp [String.length_append] <;> decide

theorem getSubstitutionL_no_dollar (m b a : List Char) :
    ∀ rep, '$' ∉ rep → getSubstitutionL m b a rep = rep := by
  intro rep
  induction rep with
  | nil =>
    intro _
    rfl
  | cons c rest ih =>
    intro h
    have hc : c ≠ '$' := fun he => h (by rw [← he]; exact List.mem_cons_self c rest)
    cases rest with
    | nil => rfl
    | cons d rest2 =>
      simp only [getSubstitutionL, if_neg hc]
      rw [ih fun hm => h (List.mem_cons_of_mem c hm)]

theorem replaceFirstAux_not_mem_append (rep : List Char) :
    ∀ (l : List Char), (∀ c ∈ l, c ≠ '?') → ∀ (pre m : List Char),
      replaceFirstAux ['?'] rep pre (l ++ m) =
        l ++ replaceFirstAux ['?'] rep (pre ++ l) m := by
  intro l
  induction l with
  | nil =>
    intro _ pre m
    simp
  | cons c cs ih =>
    intro h pre m
    have hc : c ≠ '?' := h c (List.mem_cons_self c cs)
    simp only [List.cons_append, replaceFirstAux, List.append_eq]
    rw [if_neg ?_]
    · rw [ih (fun x hx => h x (List.mem_cons_of_mem c hx)) (pre ++ [c]) m]
      simp [List.append_assoc]
    · simp [List.isPrefixOf, Ne.symm hc]

theorem replaceFirstAux_pre_irrel (rep : List Char) (hrep : '$' ∉ rep) :
    ∀ (m pre pre2 : List Char),
      replaceFirstAux ['?'] rep pre m = replaceFirstAux ['?'] rep pre2 m := by
  intro m
  induction m with
  | nil =>
    intro pre pre2
    rfl
  | cons c cs ih =>
    intro pre pre2
    simp only [replaceFirstAux]
    by_cases hp : List.isPrefixOf ['?'] (c :: cs)
    · rw [if_pos hp, if_pos hp, getSubstitutionL_no_dollar _ _ _ rep hrep,
        getSubstitutionL_no_dollar _ _ _ rep hrep]
    · rw [if_neg hp, if_neg hp, ih (pre ++ [c]) (pre2 ++ [c])]

theorem replaceFirstAux_not_mem (rep : List Char) :
    ∀ (l : List Char), (∀ c ∈ l, c ≠ '?') → ∀ pre,
      replaceFirstAux ['?'] rep pre l = l := by
  intro l
  induction l with
  | nil =>
    intro _ _
    rfl
  | cons c cs ih =>
    intro h pre
    have hc : c ≠ '?' := h c (List.mem_cons_self c cs)
    simp only [replaceFirstAux]
    rw [if_neg (by simp [List.isPrefixOf, Ne.symm hc]),
      ih (fun x hx => h x (List.mem_cons_of_mem c hx)) (pre ++ [c])]

theorem replaceFirstL_not_mem_append (rep l m : List Char) (hrep : '$' ∉ rep)
    (h : ∀ c ∈ l, c ≠ '?') :
    replaceFirstL ['?'] rep (l ++ m) = l ++ replaceFirstL ['?'] rep m := by
  unfold replaceFirstL
  rw [replaceFirstAux_not_mem_append rep l h [] m,
    replaceFirstAux_pre_irrel rep hrep m ([] ++ l) []]

theorem replaceFirstL_cons_match (rep m : List Char) (hrep : '$' ∉ rep) :
    replaceFirstL ['?'] rep ('?' :: m) = rep ++ m := by
  unfold replaceFirstL
  simp only [replaceFirstAux]
  rw [if_pos ?_]
  · rw [getSubstitutionL_no_dollar _ _ _ rep hrep]
    simp
  · simp [List.isPrefixOf]

theorem replaceFirstL_not_mem (rep l : List Char) (h : ∀ c ∈ l, c ≠ '?') :
    replaceFirstL ['?'] rep l = l :=
  replaceFirstAux_not_mem rep l h []

theorem replaceFirstAux_self : ∀ (m pre : List Char),
    replaceFirstAux ['?'] ['?'] pre m = m := by
  intro m
  induction m with
  | nil =>
    intro pre
    rfl
  | cons c cs ih =>
    intro pre
    simp only [replaceFirstAux]
    by_cases hc : c = '?'
    · subst hc
      rw [if_pos (by simp [List.isPrefixOf])]
      rfl
    · rw [if_neg (by simp [List.isPrefixOf, Ne.symm hc]), ih (pre ++ [c])]

/-- Replacing the first `?` by a literal `?` is the identity. -/
theorem replaceFirstL_self (m : List Char) : replaceFirstL ['?'] ['?'] m = m :=
  replaceFirstAux_self m []

/-- `GetSubstitution` fidelity samples: `$&` expands to the matched
    substring and `$$` to a literal dollar, as in the JS primitive. -/
theorem getSubstitution_eval :
    replaceFirst "a?b" "?" "x$&y" = "ax?yb" ∧ replaceFirst "a?b" "?" "$$" = "a$b" := by
  decide

/-- C3 (counterexample): the claim's padding property is about the
    rendered fields, and it fails there: for a non-nullable column whose
    name contains the marker character `?`, the source's
    `replace("?", formattedColumnNullable)` replaces that character by the
    empty string, so the rendered plain-mode name field is one unit short
    of `longestColumnName + COLUMN_PADDING` and differs from the field of
    a same-length ordinary name - alignment breaks. -/
theorem C3_counterexample :
    (formattedColumnName .txt col3a (longestColumnName cols3)).length =
        longestColumnName cols3 + COLUMN_PADDING - 1 ∧
      (formattedColumnName .txt col3b (longestColumnName cols3)).length =
        longestColumnName cols3 + COLUMN_PADDING ∧
      (formattedColumnName .txt col3a (longestColumnName cols3)).length ≠
        (formattedColumnName .txt col3b (longestColumnName cols3)).length := by
  decide

/-- C3 (amended): in plain mode the rendered type field of every column
    has length exactly `longestColumnType + COLUMN_PADDING`, and the
    rendered name field of every column that is nullable or whose name is
    free of the marker character `?` has length exactly
    `longestColumnName + COLUMN_PADDING` (the marker replacement is then
    the identity on lengths); for a non-nullable column whose name
    contains `?` the replacement deletes a character and the field is one
    unit short (see the counterexample). -/
theorem C3_padding_rendered (cols : List ColumnRow) (c : ColumnRow)
    (h : c ∈ allSchemaCols cols)
    (hn : c.is_nullable = true ∨ ∀ ch ∈ c.column_name.data, ch ≠ '?') :
    (formattedColumnName .txt c (longestColumnName cols)).length =
        longestColumnName cols + COLUMN_PADDING ∧
      (formattedColumnType .txt c (longestColumnType cols)).length =
        longestColumnType cols + COLUMN_PADDING := by
  have hpadlen : (paddedColumnName c (longestColumnName cols)).length =
      longestColumnName cols + COLUMN_PADDING := by
    unfold paddedColumnName
    apply padEnd_length
    rw [marker_length]
    have := foldl_widthsStep_fst_ge (allSchemaCols cols) (0, 0, 0) c h
    unfold longestColumnName widths at *
    omega
  constructor
  · have hname : formattedColumnName .txt c (longestColumnName cols) =
        paddedColumnName c (longestColumnName cols) := by
      apply String.ext
      unfold formattedColumnName replaceFirst
      rw [data_mk, show ("?" : String).data = ['?'] from rfl]
      rw [show (wrapSpanIfHTML .txt (paddedColumnName c (longestColumnName cols))
        "columnName" none).data = (paddedColumnName c (longestColumnName cols)).data from rfl]
      by_cases hnul : c.is_nullable = true
      · have hm : (formattedColumnNullable .txt c).data = ['?'] := by
          unfold formattedColumnNullable
          rw [hnul]
          rfl
        rw [hm, replaceFirstL_self]
      · have hfree : ∀ ch ∈ c.column_name.data, ch ≠ '?' := by
          rcases hn with hnl | hf
          · exact absurd hnl hnul
          · exact hf
        apply replaceFirstL_not_mem
        intro ch hch
        unfold paddedColumnName padEnd at hch
        simp only [String.data_append] at hch
        rcases List.mem_append.mp hch with h1 | h2
        · rcases List.mem_append.mp h1 with h3 | h4
          · exact hfree ch h3
          · rw [if_neg hnul] at h4
            cases h4
        · have := List.eq_of_mem_replicate h2
          subst this
          decide
    rw [hname, hpadlen]
  · show (padEnd (displayType c) (longestColumnType cols + COLUMN_PADDING)).length = _
    apply padEnd_length
    have := foldl_widthsStep_snd_ge (allSchemaCols cols) (0, 0, 0) c h
    unfold longestColumnType widths at *
    omega

/-- C3 (witness): the amended padding property at a concrete schema. -/
theorem C3_rendered_witness :
    (⟨"users", "email", "text", "text", none, true, none, none, none, none⟩ : ColumnRow) ∈
        allSchemaCols sampleCols ∧
      (formattedColumnName .txt ⟨"users", "email", "text", "text", none, true, none, none,
            none, none⟩ (longestColumnName sampleCols)).length =
          longestColumnName sampleCols + COLUMN_PADDING ∧
        (formattedColumnType .txt ⟨"users", "email", "text", "text", none, true, none, none,
              none, none⟩ (longestColumnType sampleCols)).length =
            longestColumnType sampleCols + COLUMN_PADDING :=
  ⟨by decide, C3_padding_rendered sampleCols _ (by decide) (Or.inl rfl)⟩

/-! ## C4: body ordering and uniqueness of table blocks -/

theorem keys_setKey {α : Type} (m : List (String × α)) (k : String) (v : α) :
    (setKey m k v).map Prod.fst =
      if k ∈ m.map Prod.fst then m.map Prod.fst else m.map Prod.fst ++ [k] := by
  induction m with
  | nil => simp [setKey]
  | cons p rest ih =>
    obtain ⟨k', v'⟩ := p
    simp only [setKey]
    by_cases h : k' = k
    · subst h
      simp
    · rw [if_neg h]
      simp only [List.map_cons]
      rw [ih]
      by_cases hm : k ∈ rest.map Prod.fst
      · simp [hm, List.mem_cons, Ne.symm h]
      · simp [hm, List.mem_cons, Ne.symm h]

theorem lookupKey_eq_none_iff {α : Type} (m : List (String × α)) (k : String) :
    lookupKey m k = none ↔ k ∉ m.map Prod.fst := by
  induction m with
  | nil => simp [lookupKey]
  | cons p rest ih =>
    obtain ⟨k', v'⟩ := p
    simp only [lookupKey, List.map_cons, List.mem_cons]
    by_cases h : k' = k
    · simp [h]
    · simp [h, ih, Ne.symm h]

theorem keys_insertColumnRow (m : List (String × List ColumnRow)) (c : ColumnRow) :
    (insertColumnRow m c).map Prod.fst =
      if c.table_name ∈ m.map Prod.fst then m.map Prod.fst
      else m.map Prod.fst ++ [c.table_name] := by
  unfold insertColumnRow
  cases hm : lookupKey m c.table_name with
  | none => rw [keys_setKey]
  | some cs => rw [keys_setKey]

theorem mem_keys_insertColumnRow (m : List (String × List ColumnRow)) (c : ColumnRow)
    (t : String) :
    t ∈ (insertColumnRow m c).map Prod.fst ↔
      t ∈ m.map Prod.fst ∨ t = c.table_name := by
  rw [keys_insertColumnRow]
  split_ifs with h
  · constructor
    · exact Or.inl
    · rintro (ht | rfl)
      · exact ht
      · exact h
  · simp [List.mem_append]

theorem nodup_keys_insertColumnRow (m : List (String × List ColumnRow)) (c : ColumnRow)
    (h : (m.map Prod.fst).Nodup) : ((insertColumnRow m c).map Prod.fst).Nodup := by
  rw [keys_insertColumnRow]
  split_ifs with hm
  · exact h
  · rw [List.nodup_append]
    refine ⟨h, List.nodup_singleton _, ?_⟩
    intro a ha hb
    rw [List.mem_singleton] at hb
    subst hb
    exact hm ha

theorem nodup_keys_foldl (l : List ColumnRow) :
    ∀ m, (m.map Prod.fst).Nodup → ((l.foldl insertColumnRow m).map Prod.fst).Nodup := by
  induction l with
  | nil => intro m h; exact h
  | cons c t ih =>
    intro m h
    exact ih (insertColumnRow m c) (nodup_keys_insertColumnRow m c h)

theorem mem_keys_foldl (l : List ColumnRow) :
    ∀ (m : List (String × List ColumnRow)) (t : String),
      t ∈ ((l.foldl insertColumnRow m).map Prod.fst) ↔
        t ∈ m.map Prod.fst ∨ ∃ c ∈ l, c.table_name = t := by
  induction l with
  | nil => intro m t; simp
  | cons c rest ih =>
    intro m t
    simp only [List.foldl_cons]
    rw [ih, mem_keys_insertColumnRow]
    constructor
    · rintro ((hm | rfl) | hc)
      · exact Or.inl hm
      · exact Or.inr ⟨c, List.mem_cons_self c rest, rfl⟩
      · obtain ⟨x, hx, hxt⟩ := hc
        exact Or.inr ⟨x, List.mem_cons_of_mem c hx, hxt⟩
    · rintro (hm | ⟨x, hx, hxt⟩)
      · exact Or.inl (Or.inl hm)
      · rcases List.mem_cons.mp hx with rfl | hx
        · exact Or.inl (Or.inr hxt.symm)
        · exact Or.inr ⟨x, hx, hxt⟩

theorem strLe_iff (a b : String) : strLe a b ↔ a ≤ b := by
  unfold strLe
  rw [String.le_iff_toList_le]
  exact not_lt

theorem sortStrs_sorted (l : List String) : List.Sorted (· ≤ ·) (sortStrs l) := by
  haveI : IsTotal String strLe :=
    ⟨fun a b => by
      rw [strLe_iff, strLe_iff]
      exact le_total a b⟩
  haveI : IsTrans String strLe :=
    ⟨fun a b c hab hbc => by
      rw [strLe_iff] at *
      exact le_trans hab hbc⟩
  have h : List.Sorted strLe (sortStrs l) := List.sorted_insertionSort _ l
  exact h.imp fun {x y} hxy => (strLe_iff x y).mp hxy

theorem sortStrs_perm (l : List String) : (sortStrs l).Perm l :=
  List.perm_insertionSort _ l

theorem optionMapList_map_back {α β : Type} (f : α → Option β) (g : β → α)
    (hf : ∀ a b, f a = some b → g b = a) :
    ∀ (l : List α) (l' : List β), optionMapList f l = some l' → l'.map g = l := by
  intro l
  induction l with
  | nil =>
    intro l' h
    simp only [optionMapList] at h
    cases h
    rfl
  | cons a l ih =>
    intro l' h
    simp only [optionMapList] at h
    cases hfa : f a with
    | none => rw [hfa] at h; cases h
    | some b =>
      rw [hfa] at h
      cases hrest : optionMapList f l with
      | none => rw [hrest] at h; cases h
      | some lr =>
        rw [hrest] at h
        simp only [Option.map_some', Option.some.injEq] at h
        subst h
        simp [hf a b hfa, ih lr hrest]

theorem enumEntry_fst (cols : List ColumnRow) (enums : List EnumRow) (name : String)
    (x : String × List String × List String) (h : enumEntry cols enums name = some x) :
    x.1 = name := by
  unfold enumEntry at h
  cases h1 : lookupKey (enumTableReferences cols) name with
  | none => rw [h1] at h; cases h
  | some refs =>
    cases h2 : lookupKey (enumsByName enums) name with
    | none => rw [h1, h2] at h; cases h
    | some vals =>
      rw [h1, h2] at h
      cases h
      rfl

theorem enumEntries_map_fst (cols : List ColumnRow) (enums : List EnumRow)
    (es : List (String × List String × List String))
    (h : enumEntriesOpt cols enums = some es) :
    es.map (fun e => e.1) = sortedEnumNames enums := by
  exact optionMapList_map_back _ _ (enumEntry_fst cols enums) _ es h

/-- C4: the body is the enum blocks in lexicographically sorted name
    order followed by the table blocks in lexicographically sorted name
    order, and every table name appearing on a column row appears exactly
    once among the table blocks. -/
theorem C4_body_order (cols : List ColumnRow) (enums : List EnumRow) (ns : List String)
    (h : bodyBlockNames cols enums = some ns) :
    ns = sortedEnumNames enums ++ sortedTableNames cols ∧
      List.Sorted (· ≤ ·) (sortedEnumNames enums) ∧
      List.Sorted (· ≤ ·) (sortedTableNames cols) ∧
      ∀ t, (∃ c ∈ cols, c.table_name = t) → List.count t (sortedTableNames cols) = 1 := by
  refine ⟨?_, sortStrs_sorted _, sortStrs_sorted _, ?_⟩
  · unfold bodyBlockNames at h
    cases he : enumEntriesOpt cols enums with
    | none => rw [he] at h; cases h
    | some es =>
      rw [he] at h
      simp only [Option.map_some', Option.some.injEq] at h
      subst h
      rw [enumEntries_map_fst cols enums es he]
  · intro t ht
    unfold sortedTableNames
    have hperm := sortStrs_perm ((schemaGrouped cols).map Prod.fst)
    rw [hperm.count_eq]
    apply List.count_eq_one_of_mem
    · unfold schemaGrouped
      exact nodup_keys_foldl _ [] (by simp)
    · unfold schemaGrouped
      rw [mem_keys_foldl]
      right
      obtain ⟨c, hc, hct⟩ := ht
      exact ⟨c, ((List.perm_insertionSort leNull cols).mem_iff).mpr hc, hct⟩

/-- C4 (witness): the ordering statement at a concrete two-table input. -/
theorem C4_witness :
    bodyBlockNames cols4w [] = some ["a", "b"] ∧
      (["a", "b"] = sortedEnumNames [] ++ sortedTableNames cols4w ∧
        List.Sorted (· ≤ ·) (sortedEnumNames []) ∧
        List.Sorted (· ≤ ·) (sortedTableNames cols4w) ∧
        ∀ t, (∃ c ∈ cols4w, c.table_name = t) →
          List.count t (sortedTableNames cols4w) = 1) :=
  ⟨by decide, C4_body_order cols4w [] ["a", "b"] (by decide)⟩

/-! ## C7: unmatched user-defined types (counterexample) -/

/-- C7 (counterexample): an input containing a column row that claims a
    user-defined type matching no enum row, together with an enum row that
    no column references, makes rendering fail (the reference lookup for
    the unreferenced enum throws), so rendering does not always complete. -/
theorem C7_counterexample :
    (∃ c ∈ cols7, c.data_type = ENUM_DATA_TYPE ∧ ∀ e ∈ enums7, e.enum_name ≠ c.udt_name) ∧
      schemaStringOpt .txt cols7 enums7 = none := by
  decide

theorem mem_keys_setKey {α : Type} (m : List (String × α)) (k t : String) (v : α) :
    t ∈ (setKey m k v).map Prod.fst ↔ t ∈ m.map Prod.fst ∨ t = k := by
  rw [keys_setKey]
  split_ifs with h
  · constructor
    · exact Or.inl
    · rintro (ht | rfl)
      · exact ht
      · exact h
  · simp [List.mem_append]

theorem mem_keys_enumsByName_aux (l : List EnumRow) :
    ∀ (m : List (String × List String)) (t : String),
      t ∈ ((l.foldl enumsStep m).map Prod.fst) ↔
        t ∈ m.map Prod.fst ∨ ∃ e ∈ l, e.enum_name = t := by
  induction l with
  | nil => intro m t; simp
  | cons e l ih =>
    intro m t
    simp only [List.foldl_cons]
    rw [ih]
    unfold enumsStep
    rw [mem_keys_setKey]
    constructor
    · rintro ((hm | rfl) | ⟨x, hx, rfl⟩)
      · exact Or.inl hm
      · exact Or.inr ⟨e, List.mem_cons_self e l, rfl⟩
      · exact Or.inr ⟨x, List.mem_cons_of_mem e hx, rfl⟩
    · rintro (hm | ⟨x, hx, rfl⟩)
      · exact Or.inl (Or.inl hm)
      · rcases List.mem_cons.mp hx with rfl | hx
        · exact Or.inl (Or.inr rfl)
        · exact Or.inr ⟨x, hx, rfl⟩

theorem mem_keys_enumsByName (enums : List EnumRow) (t : String) :
    t ∈ (enumsByName enums).map Prod.fst ↔ ∃ e ∈ enums, e.enum_name = t := by
  unfold enumsByName
  rw [mem_keys_enumsByName_aux]
  simp

theorem mem_keys_refStep (m : List (String × List String)) (c : ColumnRow) (t : String) :
    t ∈ (refStep m c).map Prod.fst ↔
      t ∈ m.map Prod.fst ∨ (c.data_type = ENUM_DATA_TYPE ∧ t = c.udt_name) := by
  unfold refStep
  by_cases hd : c.data_type = ENUM_DATA_TYPE
  · rw [if_pos hd]
    cases hm : lookupKey m c.udt_name with
    | none => rw [mem_keys_setKey]; simp [hd]
    | some s => rw [mem_keys_setKey]; simp [hd]
  · rw [if_neg hd]
    simp [hd]

theorem mem_keys_enumTableReferences_aux (l : List ColumnRow) :
    ∀ (m : List (String × List String)) (t : String),
      t ∈ ((l.foldl refStep m).map Prod.fst) ↔
        t ∈ m.map Prod.fst ∨
          ∃ c ∈ l, c.data_type = ENUM_DATA_TYPE ∧ c.udt_name = t := by
  induction l with
  | nil => intro m t; simp
  | cons c l ih =>
    intro m t
    simp only [List.foldl_cons]
    rw [ih, mem_keys_refStep]
    constructor
    · rintro ((hm | ⟨hd, rfl⟩) | ⟨x, hx, hxd, rfl⟩)
      · exact Or.inl hm
      · exact Or.inr ⟨c, List.mem_cons_self c l, hd, rfl⟩
      · exact Or.inr ⟨x, List.mem_cons_of_mem c hx, hxd, rfl⟩
    · rintro (hm | ⟨x, hx, hxd, rfl⟩)
      · exact Or.inl (Or.inl hm)
      · rcases List.mem_cons.mp hx with rfl | hx
        · exact Or.inl (Or.inr ⟨hxd, rfl⟩)
        · exact Or.inr ⟨x, hx, hxd, rfl⟩

theorem mem_keys_enumTableReferences (cols : List ColumnRow) (t : String) :
    t ∈ (enumTableReferences cols).map Prod.fst ↔
      ∃ c ∈ cols, c.data_type = ENUM_DATA_TYPE ∧ c.udt_name = t := by
  unfold enumTableReferences
  rw [mem_keys_enumTableReferences_aux]
  simp

theorem lookupKey_isSome_of_mem {α : Type} (m : List (String × α)) (k : String)
    (h : k ∈ m.map Prod.fst) : ∃ v, lookupKey m k = some v := by
  cases hl : lookupKey m k with
  | none => exact absurd h ((lookupKey_eq_none_iff m k).mp hl)
  | some v => exact ⟨v, rfl⟩

theorem optionMapList_some_of_forall {α β : Type} (f : α → Option β) :
    ∀ l : List α, (∀ a ∈ l, ∃ b, f a = some b) → ∃ l', optionMapList f l = some l' := by
  intro l
  induction l with
  | nil => intro _; exact ⟨[], rfl⟩
  | cons a l ih =>
    intro h
    obtain ⟨b, hb⟩ := h a (List.mem_cons_self a l)
    obtain ⟨l', hl'⟩ := ih fun x hx => h x (List.mem_cons_of_mem a hx)
    refine ⟨b :: l', ?_⟩
    simp [optionMapList, hb, hl']

theorem optionMapList_mem_back {α β : Type} (f : α → Option β) :
    ∀ (l : List α) (l' : List β), optionMapList f l = some l' →
      ∀ b ∈ l', ∃ a ∈ l, f a = some b := by
  intro l
  induction l with
  | nil =>
    intro l' h b hb
    simp only [optionMapList] at h
    cases h
    cases hb
  | cons a l ih =>
    intro l' h b hb
    simp only [optionMapList] at h
    cases hfa : f a with
    | none => rw [hfa] at h; cases h
    | some x =>
      rw [hfa] at h
      cases hrest : optionMapList f l with
      | none => rw [hrest] at h; cases h
      | some lr =>
        rw [hrest] at h
        simp only [Option.map_some', Option.some.injEq] at h
        subst h
        rcases List.mem_cons.mp hb with rfl | hb
        · exact ⟨a, List.mem_cons_self a l, hfa⟩
        · obtain ⟨a', ha', hfa'⟩ := ih lr hrest b hb
          exact ⟨a', List.mem_cons_of_mem a ha', hfa'⟩

/-- C7 (amended): whenever every enum row's name is referenced by at
    least one column row (the condition under which rendering completes
    at all), rendering returns a document; a column row claiming a
    user-defined type with no matching enum row never causes a failure,
    no enum block is emitted for the unmatched type, and its labels are
    never looked up (no labels of it are printed). -/
theorem C7_unmatched_type_recovered (ft : FileType) (cols : List ColumnRow)
    (enums : List EnumRow)
    (h : ∀ e ∈ enums, ∃ c ∈ cols, c.data_type = ENUM_DATA_TYPE ∧ c.udt_name = e.enum_name) :
    (∃ s, schemaStringOpt ft cols enums = some s) ∧
      ∀ u, (∀ e ∈ enums, e.enum_name ≠ u) →
        ∀ es, enumEntriesOpt cols enums = some es → ∀ x ∈ es, x.1 ≠ u := by
  have hall : ∀ name ∈ sortedEnumNames enums, ∃ b, enumEntry cols enums name = some b := by
    intro name hname
    have hkeys : name ∈ (enumsByName enums).map Prod.fst := by
      have hperm := sortStrs_perm ((enumsByName enums).map Prod.fst)
      exact hperm.mem_iff.mp hname
    have hen : ∃ e ∈ enums, e.enum_name = name := (mem_keys_enumsByName enums name).mp hkeys
    obtain ⟨e, he, rfl⟩ := hen
    obtain ⟨c, hc, hcd, hcu⟩ := h e he
    have hrefs : e.enum_name ∈ (enumTableReferences cols).map Prod.fst :=
      (mem_keys_enumTableReferences cols e.enum_name).mpr ⟨c, hc, hcd, hcu⟩
    obtain ⟨refs, hrefs'⟩ := lookupKey_isSome_of_mem _ _ hrefs
    obtain ⟨vals, hvals⟩ := lookupKey_isSome_of_mem _ _ hkeys
    refine ⟨(e.enum_name, refs, vals), ?_⟩
    unfold enumEntry
    rw [hrefs', hvals]
  obtain ⟨es, hes⟩ := optionMapList_some_of_forall _ _ hall
  constructor
  · refine ⟨joinWith "" (es.map fun e => enumBlockText ft e.1 e.2.1 e.2.2) ++
      tableBlocksText ft cols, ?_⟩
    unfold schemaStringOpt enumEntriesOpt
    rw [hes]
    rfl
  · intro u hu es' hes' x hx
    obtain ⟨name, hname, hfx⟩ := optionMapList_mem_back _ _ es' hes' x hx
    have hxname : x.1 = name := enumEntry_fst cols enums name x hfx
    rw [hxname]
    have hkeys : name ∈ (enumsByName enums).map Prod.fst :=
      (sortStrs_perm _).mem_iff.mp hname
    obtain ⟨e, he, rfl⟩ := (mem_keys_enumsByName enums name).mp hkeys
    exact hu e he

/-! ## C10: independent decoration of the nullability marker -/

theorem nullableMarkerSpan_data (n : String) :
    (nullableMarkerSpan n).data =
      "<span class=\"columnProperty bold\" data-tooltip=\"".data ++ n.data ++
        " is NULLABLE.\">?</span>".data := by
  have hne : ¬ n ++ " is NULLABLE." = "" := by
    intro h
    have hlen := congrArg String.length h
    rw [String.length_append] at hlen
    have h13 : (" is NULLABLE." : String).length = 13 := rfl
    have h0 : ("" : String).length = 0 := rfl
    omega
  unfold nullableMarkerSpan wrapSpan wrapElement attrText
  dsimp only
  rw [if_neg hne]
  simp [String.data_append]

theorem nullableMarkerSpan_no_dollar (n : String) (hd : ∀ ch ∈ n.data, ch ≠ '$') :
    '$' ∉ (nullableMarkerSpan n).data := by
  rw [nullableMarkerSpan_data]
  intro hmem
  rcases List.mem_append.mp hmem with h1 | h2
  · rcases List.mem_append.mp h1 with h3 | h4
    · exact absurd h3 (by decide)
    · exact hd '$' h4 rfl
  · exact absurd h2 (by decide)

theorem formattedColumnNullable_no_dollar (ft : FileType) (c : ColumnRow)
    (hd : NoDollarName c) : '$' ∉ (formattedColumnNullable ft c).data := by
  unfold formattedColumnNullable
  split_ifs with hn
  · cases ft with
    | html => exact nullableMarkerSpan_no_dollar c.column_name hd
    | txt =>
      show '$' ∉ ("?" : String).data
      decide
  · decide

/-- C10 (amended): for a nullable column whose name does not contain the
    marker character, decorated mode emits the name span with the marker
    wrapped in its own tooltip-carrying span, and plain mode emits the
    bare name, the literal marker and the padding spaces.  (For names
    containing the marker character the first in-name occurrence is
    decorated instead; see the counterexample.) -/
theorem C10_marker_decorated (c : ColumnRow) (W : Nat) (hn : c.is_nullable = true)
    (hq : ∀ ch ∈ c.column_name.data, ch ≠ '?') (hd : NoDollarName c) :
    formattedColumnName .html c W =
        "<span class=\"columnName\">" ++ c.column_name ++ nullableMarkerSpan c.column_name ++
          spaces (W + COLUMN_PADDING - (c.column_name.length + 1)) ++ "</span>" ∧
      formattedColumnName .txt c W =
        c.column_name ++ "?" ++ spaces (W + COLUMN_PADDING - (c.column_name.length + 1)) := by
  have hqm : "?".data = ['?'] := rfl
  have hpad : (paddedColumnName c W).data =
      c.column_name.data ++
        '?' :: List.replicate (W + COLUMN_PADDING - (c.column_name.length + 1)) ' ' := by
    unfold paddedColumnName padEnd
    rw [hn]
    simp only [if_pos]
    have hlen : (c.column_name ++ "?").length = c.column_name.length + 1 := by
      rw [String.length_append]
      rfl
    rw [hlen]
    simp [String.data_append]
  constructor
  · apply String.ext
    unfold formattedColumnName replaceFirst
    have hmarker : formattedColumnNullable .html c = nullableMarkerSpan c.column_name := by
      unfold formattedColumnNullable nullableMarkerSpan
      rw [hn]
      rfl
    rw [hmarker]
    have hspan : (wrapSpanIfHTML .html (paddedColumnName c W) "columnName" none).data =
        "<span class=\"columnName\">".data ++ (paddedColumnName c W).data ++
          "</span>".data := by
      show (wrapSpan (paddedColumnName c W) "columnName" none).data = _
      unfold wrapSpan wrapElement attrText
      simp [String.data_append]
    rw [hspan, hpad, hqm]
    have hopen : ∀ ch ∈ "<span class=\"columnName\">".data, ch ≠ '?' := by decide
    rw [data_mk]
    simp only [List.append_assoc]
    rw [List.cons_append '?'
      (List.replicate (W + COLUMN_PADDING - (c.column_name.length + 1)) ' ') "</span>".data]
    have hrepH : '$' ∉ (nullableMarkerSpan c.column_name).data :=
      nullableMarkerSpan_no_dollar c.column_name hd
    rw [replaceFirstL_not_mem_append _ _ _ hrepH hopen,
      replaceFirstL_not_mem_append _ _ _ hrepH hq, replaceFirstL_cons_match _ _ hrepH]
    simp [String.data_append, spaces, List.append_assoc]
  · apply String.ext
    unfold formattedColumnName replaceFirst
    have hmarker : formattedColumnNullable .txt c = "?" := by
      unfold formattedColumnNullable
      rw [hn]
      rfl
    rw [hmarker]
    have htxt : (wrapSpanIfHTML .txt (paddedColumnName c W) "columnName" none).data =
        (paddedColumnName c W).data := rfl
    rw [htxt, hpad, hqm]
    have hrepT : '$' ∉ ("?" : String).data := by decide
    rw [replaceFirstL_not_mem_append _ _ _ hrepT hq, replaceFirstL_cons_match _ _ hrepT]
    simp [String.data_append, spaces, List.append_assoc]

/-- C10 (witness): the amended statement at a concrete nullable column. -/
theorem C10_witness :
    row10w.is_nullable = true ∧ (∀ ch ∈ row10w.column_name.data, ch ≠ '?') ∧
      NoDollarName row10w ∧
      (formattedColumnName .html row10w 6 =
          "<span class=\"columnName\">" ++ row10w.column_name ++
            nullableMarkerSpan row10w.column_name ++
            spaces (6 + COLUMN_PADDING - (row10w.column_name.length + 1)) ++ "</span>" ∧
        formattedColumnName .txt row10w 6 =
          row10w.column_name ++ "?" ++
            spaces (6 + COLUMN_PADDING - (row10w.column_name.length + 1))) :=
  ⟨rfl, by decide, by decide, C10_marker_decorated row10w 6 rfl (by decide) (by decide)⟩

/-! ## C6: comment wrapping -/

theorem intercalateL_cons (sep x : List Char) (r : List (List Char)) (hr : r ≠ []) :
    intercalateL sep (x :: r) = x ++ sep ++ intercalateL sep r := by
  cases r with
  | nil => cases hr rfl
  | cons y rs => rfl

theorem joinTailL_cons (w : List Char) (ws : List (List Char)) :
    joinTailL (w :: ws) = ' ' :: (w ++ joinTailL ws) := by
  cases ws with
  | nil => simp [joinTailL, intercalateL]
  | cons y rs =>
    show ' ' :: intercalateL [' '] (w :: y :: rs) = _
    rw [intercalateL_cons _ _ _ (by simp)]
    simp [joinTailL, List.append_assoc]

theorem intercalateL_eq_cons (w : List Char) (ws : List (List Char)) :
    intercalateL [' '] (w :: ws) = w ++ joinTailL ws := by
  cases ws with
  | nil => simp [intercalateL, joinTailL]
  | cons y rs =>
    rw [intercalateL_cons _ _ _ (by simp)]
    show _ = w ++ ' ' :: intercalateL [' '] (y :: rs)
    simp [List.append_assoc]

theorem intercalate_append_single (ws : List (List Char)) (w : List Char) (hne : ws ≠ []) :
    intercalateL [' '] (ws ++ [w]) = intercalateL [' '] ws ++ ' ' :: w := by
  induction ws with
  | nil => cases hne rfl
  | cons x ws ih =>
    cases ws with
    | nil =>
      show intercalateL [' '] [x, w] = _
      rw [intercalateL_cons _ _ _ (by simp)]
      simp [intercalateL, List.append_assoc]
    | cons y rs =>
      rw [List.cons_append, intercalateL_cons [' '] x ((y :: rs) ++ [w]) (by simp),
        ih (by simp), intercalateL_cons [' '] x (y :: rs) (by simp)]
      simp [List.append_assoc]

theorem splitOnSpaceL_single (w : List Char) (h : ∀ c ∈ w, c ≠ ' ') :
    splitOnSpaceL w = [w] := by
  induction w with
  | nil => rfl
  | cons c cs ih =>
    have hc : c ≠ ' ' := h c (List.mem_cons_self c cs)
    simp only [splitOnSpaceL, if_neg hc, ih fun x hx => h x (List.mem_cons_of_mem c hx)]

theorem splitOnSpaceL_append (w r : List Char) (h : ∀ c ∈ w, c ≠ ' ') :
    splitOnSpaceL (w ++ ' ' :: r) = w :: splitOnSpaceL r := by
  induction w with
  | nil => simp [splitOnSpaceL]
  | cons c cs ih =>
    have hc : c ≠ ' ' := h c (List.mem_cons_self c cs)
    simp only [List.cons_append, splitOnSpaceL, if_neg hc, List.append_eq,
      ih fun x hx => h x (List.mem_cons_of_mem c hx)]

theorem splitOnSpaceL_join (ws : List (List Char)) (h : ∀ w ∈ ws, ∀ c ∈ w, c ≠ ' ')
    (hne : ws ≠ []) : splitOnSpaceL (intercalateL [' '] ws) = ws := by
  induction ws with
  | nil => cases hne rfl
  | cons w ws ih =>
    cases ws with
    | nil => exact splitOnSpaceL_single w (h w (List.mem_cons_self w []))
    | cons y rs =>
      rw [intercalateL_cons _ _ _ (by simp), List.append_assoc, List.singleton_append,
        splitOnSpaceL_append _ _ (h w (List.mem_cons_self w _)),
        ih (fun x hx => h x (List.mem_cons_of_mem w hx)) (by simp)]

theorem mem_of_getLast?_eq (l : List Char) (c : Char) (h : l.getLast? = some c) : c ∈ l := by
  have hne : l ≠ [] := by rintro rfl; cases h
  have hg := List.getLast?_eq_getLast l hne
  rw [hg] at h
  injection h with h
  rw [← h]
  exact List.getLast_mem hne

theorem plain_no_space {w : List Char} (hw : PlainWordL w) : ∀ c ∈ w, c ≠ ' ' := by
  intro c hc heq
  have hws := hw.2 c hc
  rw [heq] at hws
  exact absurd hws (by decide)

theorem join_ne_nil (ws : List (List Char)) (hne : ws ≠ [])
    (h : ∀ w ∈ ws, PlainWordL w) : intercalateL [' '] ws ≠ [] := by
  cases ws with
  | nil => cases hne rfl
  | cons w rs =>
    rw [intercalateL_eq_cons]
    have hw := h w (List.mem_cons_self w rs)
    cases hw1 : w with
    | nil => exact absurd hw1 hw.1
    | cons x xs => simp

theorem join_head?_not_ws (ws : List (List Char)) (hne : ws ≠ [])
    (h : ∀ w ∈ ws, PlainWordL w) :
    ∀ c, (intercalateL [' '] ws).head? = some c → c.isWhitespace = false := by
  cases ws with
  | nil => cases hne rfl
  | cons w rs =>
    intro c hc
    rw [intercalateL_eq_cons] at hc
    have hw := h w (List.mem_cons_self w rs)
    cases hw1 : w with
    | nil => exact absurd hw1 hw.1
    | cons x xs =>
      rw [hw1, List.cons_append, List.head?_cons] at hc
      injection hc with hc
      rw [← hc]
      exact hw.2 x (by rw [hw1]; exact List.mem_cons_self x xs)

theorem join_getLast?_not_ws (ws : List (List Char)) :
    ws ≠ [] → (∀ w ∈ ws, PlainWordL w) →
      ∀ c, (intercalateL [' '] ws).getLast? = some c → c.isWhitespace = false := by
  induction ws with
  | nil => intro h; cases h rfl
  | cons w rs ih =>
    intro _ h c hc
    cases rs with
    | nil =>
      have hw := h w (List.mem_cons_self w [])
      simp only [intercalateL] at hc
      exact hw.2 c (mem_of_getLast?_eq _ _ hc)
    | cons y rr =>
      rw [intercalateL_cons _ _ _ (by simp)] at hc
      rw [List.getLast?_append_of_ne_nil _
        (join_ne_nil (y :: rr) (by simp) fun x hx => h x (List.mem_cons_of_mem w hx))] at hc
      exact ih (by simp) (fun x hx => h x (List.mem_cons_of_mem w hx)) c hc

theorem dropWhile_no_ws (m : List Char)
    (hm : ∀ c, m.head? = some c → c.isWhitespace = false) :
    m.dropWhile Char.isWhitespace = m := by
  cases m with
  | nil => rfl
  | cons x xs =>
    rw [List.dropWhile_cons, hm x (by rw [List.head?_cons])]
    simp

theorem trimL_sp_join (b : Bool) (ws : List (List Char)) (hne : ws ≠ [])
    (h : ∀ w ∈ ws, PlainWordL w) :
    trimL ((if b then [' '] else []) ++ intercalateL [' '] ws) = intercalateL [' '] ws := by
  unfold trimL
  have h1 : ((if b then [' '] else []) ++ intercalateL [' '] ws).dropWhile Char.isWhitespace =
      intercalateL [' '] ws := by
    cases b with
    | true =>
      rw [if_pos rfl, List.singleton_append, List.dropWhile_cons]
      rw [if_pos (by decide)]
      exact dropWhile_no_ws _ (join_head?_not_ws ws hne h)
    | false =>
      rw [if_neg (by decide), List.nil_append]
      exact dropWhile_no_ws _ (join_head?_not_ws ws hne h)
  rw [h1]
  have h2 : (intercalateL [' '] ws).reverse.dropWhile Char.isWhitespace =
      (intercalateL [' '] ws).reverse := by
    apply dropWhile_no_ws
    intro c hc
    rw [List.head?_reverse] at hc
    exact join_getLast?_not_ws ws hne h c hc
  rw [h2, List.reverse_reverse]

theorem trimL_length_le (l : List Char) : (trimL l).length ≤ l.length := by
  unfold trimL
  rw [List.length_reverse]
  calc ((l.dropWhile Char.isWhitespace).reverse.dropWhile Char.isWhitespace).length
      ≤ (l.dropWhile Char.isWhitespace).reverse.length :=
        (List.dropWhile_sublist Char.isWhitespace).length_le
    _ = (l.dropWhile Char.isWhitespace).length := List.length_reverse _
    _ ≤ l.length := (List.dropWhile_sublist Char.isWhitespace).length_le

theorem goPack_ne_nil (maxLength : Nat) :
    ∀ (ws : List (List Char)) (cur : List Char), goPack maxLength cur ws ≠ [] := by
  intro ws
  induction ws with
  | nil => intro cur; simp [goPack]
  | cons w ws ih =>
    intro cur
    simp only [goPack]
    split_ifs with h
    · exact ih _
    · simp

theorem goPack_join (maxLength : Nat) :
    ∀ (ws : List (List Char)) (b : Bool) (ws₁ : List (List Char)),
      ws₁ ≠ [] → (∀ w ∈ ws₁, PlainWordL w) → (∀ w ∈ ws, PlainWordL w) →
      intercalateL [' ']
          (goPack maxLength ((if b then [' '] else []) ++ intercalateL [' '] ws₁) ws) =
        intercalateL [' '] ws₁ ++ joinTailL ws := by
  intro ws
  induction ws with
  | nil =>
    intro b ws₁ hne h₁ _
    show intercalateL [' ']
        [trimL ((if b then [' '] else []) ++ intercalateL [' '] ws₁)] = _
    rw [trimL_sp_join b ws₁ hne h₁]
    simp [intercalateL, joinTailL]
  | cons w ws ih =>
    intro b ws₁ hne h₁ h₂
    have hw : PlainWordL w := h₂ w (List.mem_cons_self w ws)
    simp only [goPack]
    by_cases hfit :
        ((((if b then [' '] else []) ++ intercalateL [' '] ws₁)) ++ w).length ≤ maxLength
    · rw [if_pos hfit]
      have hcur : ((if b then [' '] else []) ++ intercalateL [' '] ws₁) ++ ' ' :: w =
          (if b then [' '] else []) ++ intercalateL [' '] (ws₁ ++ [w]) := by
        rw [intercalate_append_single _ _ hne, List.append_assoc]
      rw [hcur, ih b (ws₁ ++ [w]) (by simp)
        (fun x hx => by
          rcases List.mem_append.mp hx with hx | hx
          · exact h₁ x hx
          · rw [List.mem_singleton.mp hx]; exact hw)
        (fun x hx => h₂ x (List.mem_cons_of_mem w hx))]
      rw [intercalate_append_single _ _ hne, joinTailL_cons]
      simp [List.append_assoc]
    · rw [if_neg hfit]
      rw [intercalateL_cons [' '] _ _ (goPack_ne_nil maxLength ws w)]
      rw [trimL_sp_join b ws₁ hne h₁]
      have hstart : goPack maxLength w ws =
          goPack maxLength ((if false then [' '] else []) ++ intercalateL [' '] [w]) ws := by
        simp [intercalateL]
      rw [hstart, ih false [w] (by simp)
        (fun x hx => by rw [List.mem_singleton.mp hx]; exact hw)
        (fun x hx => h₂ x (List.mem_cons_of_mem w hx))]
      rw [joinTailL_cons]
      show _ = _ ++ ' ' :: (w ++ joinTailL ws)
      simp [intercalateL, List.append_assoc]

theorem goPack_lines_le (maxLength : Nat) :
    ∀ (ws : List (List Char)) (cur : List Char),
      cur.length ≤ maxLength + 1 → (∀ w ∈ ws, w.length ≤ maxLength) →
      ∀ l ∈ goPack maxLength cur ws, l.length ≤ maxLength + 1 := by
  intro ws
  induction ws with
  | nil =>
    intro cur hcur _ l hl
    simp only [goPack, List.mem_singleton] at hl
    subst hl
    exact le_trans (trimL_length_le cur) hcur
  | cons w ws ih =>
    intro cur hcur hws l hl
    simp only [goPack] at hl
    split_ifs at hl with hfit
    · refine ih _ ?_ (fun x hx => hws x (List.mem_cons_of_mem w hx)) l hl
      rw [List.length_append] at hfit
      simp only [List.length_append, List.length_cons]
      omega
    · rcases List.mem_cons.mp hl with rfl | hl
      · exact le_trans (trimL_length_le cur) hcur
      · refine ih w ?_ (fun x hx => hws x (List.mem_cons_of_mem w hx)) l hl
        exact le_trans (hws w (List.mem_cons_self w ws)) (Nat.le_succ maxLength)

theorem goPack_length_one (maxLength : Nat) :
    ∀ (ws : List (List Char)) (cur : List Char),
      (goPack maxLength cur ws).length = 1 → fitsAll maxLength cur ws := by
  intro ws
  induction ws with
  | nil =>
    intro cur _
    show True
    trivial
  | cons w ws ih =>
    intro cur h
    simp only [goPack] at h
    split_ifs at h with hfit
    · exact ⟨hfit, ih _ h⟩
    · exfalso
      rw [List.length_cons] at h
      have hz : (goPack maxLength w ws).length = 0 := by omega
      exact goPack_ne_nil maxLength ws w (List.length_eq_zero.mp hz)

theorem fitsAll_bound (maxLength : Nat) :
    ∀ (ws : List (List Char)) (cur : List Char), ws ≠ [] →
      fitsAll maxLength cur ws → cur.length + (joinTailL ws).length ≤ maxLength + 1 := by
  intro ws
  induction ws with
  | nil => intro cur h; cases h rfl
  | cons w ws ih =>
    intro cur _ hf
    obtain ⟨h1, h2⟩ := hf
    rw [List.length_append] at h1
    cases ws with
    | nil =>
      rw [joinTailL_cons]
      simp only [joinTailL, List.append_nil, List.length_cons]
      omega
    | cons y rs =>
      have hb := ih (cur ++ ' ' :: w) (by simp) h2
      rw [joinTailL_cons]
      simp only [List.length_append, List.length_cons] at hb ⊢
      omega

theorem goPack_top_join (wsL : List (List Char)) (hne : wsL ≠ [])
    (hplain : ∀ w ∈ wsL, PlainWordL w) (hlen : ∀ w ∈ wsL, w.length ≤ 80) :
    intercalateL [' '] (goPack 80 [] wsL) = intercalateL [' '] wsL := by
  cases wsL with
  | nil => cases hne rfl
  | cons w ws =>
    simp only [goPack]
    have hfit : (([] : List Char) ++ w).length ≤ 80 := by
      simpa using hlen w (List.mem_cons_self w ws)
    rw [if_pos hfit]
    have hstart : ([] : List Char) ++ ' ' :: w =
        (if true then [' '] else []) ++ intercalateL [' '] [w] := by
      simp [intercalateL]
    rw [hstart, goPack_join 80 ws true [w] (by simp)
      (fun x hx => by
        rw [List.mem_singleton.mp hx]
        exact hplain w (List.mem_cons_self w ws))
      (fun x hx => hplain x (List.mem_cons_of_mem w hx))]
    rw [show intercalateL [' '] [w] = w from rfl, intercalateL_eq_cons w ws]

theorem goPack_top_two (wsL : List (List Char)) (hne : wsL ≠ [])
    (hbig : 80 < (intercalateL [' '] wsL).length) : 2 ≤ (goPack 80 [] wsL).length := by
  cases wsL with
  | nil => cases hne rfl
  | cons w ws =>
    by_contra hlt
    push_neg at hlt
    have hpos : 1 ≤ (goPack 80 [] (w :: ws)).length := by
      have := goPack_ne_nil 80 (w :: ws) []
      cases hg : goPack 80 [] (w :: ws) with
      | nil => exact absurd hg this
      | cons a l => simp
    have h1 : (goPack 80 [] (w :: ws)).length = 1 := by omega
    have hfits := goPack_length_one 80 (w :: ws) [] h1
    obtain ⟨hw80, hrest⟩ := hfits
    rw [List.nil_append] at hw80
    cases ws with
    | nil =>
      simp only [intercalateL] at hbig
      omega
    | cons y rs =>
      have hb := fitsAll_bound 80 (y :: rs) (' ' :: w) (by simp)
        (by simpa using hrest)
      rw [intercalateL_eq_cons, List.length_append] at hbig
      simp only [List.length_cons] at hb
      omega

/-- C6 (amended): for a comment assembled as a single-space joining of
    nonempty, whitespace-free words each at most 80 units long: if the
    unwrapped text exceeds 80 units it is split on word boundaries into
    at least 2 lines; every line is at most 81 units (the greedy length
    check does not count the joining space, so a packed line may exceed
    the 80-unit target by one); rejoining the lines with single spaces
    reproduces the original text; and in decorated mode every wrapped
    segment is prefixed with the comment-span marker (in plain mode only
    the first line carries the textual `--` marker; see the
    counterexample). -/
theorem C6_wrapping (ws : List String) (hne : ws ≠ []) (hw : ∀ w ∈ ws, PlainWord w)
    (hlen : ∀ w ∈ ws, w.length ≤ 80) :
    (80 < (joinWith " " ws).length → 2 ≤ (splitString (joinWith " " ws) 80).length) ∧
      (∀ l ∈ splitString (joinWith " " ws) 80, l.length ≤ 81) ∧
      joinWith " " (splitString (joinWith " " ws) 80) = joinWith " " ws ∧
      ∀ l ∈ splitString (joinWith " " ws) 80,
        wrapSpanIfHTML .html l "comment" none =
          "<span class=\"comment\">" ++ l ++ "</span>" := by
  have hneL : ws.map String.data ≠ [] := by
    intro h
    cases ws with
    | nil => exact hne rfl
    | cons a l => cases h
  have hplainL : ∀ w ∈ ws.map String.data, PlainWordL w := by
    intro w hwm
    obtain ⟨x, hx, rfl⟩ := List.mem_map.mp hwm
    exact hw x hx
  have hlenL : ∀ w ∈ ws.map String.data, w.length ≤ 80 := by
    intro w hwm
    obtain ⟨x, hx, rfl⟩ := List.mem_map.mp hwm
    exact hlen x hx
  have hsplit : splitStringL (joinWith " " ws).data 80 = goPack 80 [] (ws.map String.data) := by
    have hdata : (joinWith " " ws).data = intercalateL [' '] (ws.map String.data) := rfl
    unfold splitStringL
    rw [hdata, splitOnSpaceL_join (ws.map String.data)
      (fun w hw' => plain_no_space (hplainL w hw')) hneL]
  refine ⟨?_, ?_, ?_, ?_⟩
  · intro hbig
    unfold splitString
    rw [List.length_map, hsplit]
    exact goPack_top_two (ws.map String.data) hneL hbig
  · intro l hl
    unfold splitString at hl
    rw [hsplit] at hl
    obtain ⟨l', hl', rfl⟩ := List.mem_map.mp hl
    exact goPack_lines_le 80 (ws.map String.data) [] (by simp) hlenL l' hl'
  · apply String.ext
    show intercalateL [' '] ((splitString (joinWith " " ws) 80).map String.data) =
      intercalateL [' '] (ws.map String.data)
    unfold splitString
    rw [List.map_map]
    have hcomp : (String.data ∘ fun l : List Char => (⟨l⟩ : String)) = id := by
      funext l
      rfl
    rw [hcomp, List.map_id, hsplit]
    exact goPack_top_join (ws.map String.data) hneL hplainL hlenL
  · intro l _
    apply String.ext
    show (wrapSpan l "comment" none).data = _
    unfold wrapSpan wrapElement attrText
    simp [String.data_append]

/-- C6 (witness): the amended wrapping statement at a concrete word list. -/
theorem C6_witness :
    (["alpha", "beta"] : List String) ≠ [] ∧
      (∀ w ∈ (["alpha", "beta"] : List String), PlainWord w) ∧
      (∀ w ∈ (["alpha", "beta"] : List String), w.length ≤ 80) ∧
      ((80 < (joinWith " " ["alpha", "beta"]).length →
          2 ≤ (splitString (joinWith " " ["alpha", "beta"]) 80).length) ∧
        (∀ l ∈ splitString (joinWith " " ["alpha", "beta"]) 80, l.length ≤ 81) ∧
        joinWith " " (splitString (joinWith " " ["alpha", "beta"]) 80) =
          joinWith " " ["alpha", "beta"] ∧
        ∀ l ∈ splitString (joinWith " " ["alpha", "beta"]) 80,
          wrapSpanIfHTML .html l "comment" none =
            "<span class=\"comment\">" ++ l ++ "</span>") :=
  ⟨by decide, by decide, by decide,
    C6_wrapping ["alpha", "beta"] (by decide) (by decide) (by decide)⟩


/-! ## C9: decorated output strips to plain output -/

theorem stripTagsL_false_append (l r : List Char) (h : ∀ c ∈ l, c ≠ '<') :
    stripTagsL false (l ++ r) = l ++ stripTagsL false r := by
  induction l with
  | nil => rfl
  | cons c cs ih =>
    have hc : c ≠ '<' := h c (List.mem_cons_self c cs)
    simp only [List.cons_append, stripTagsL, if_neg hc, List.append_eq]
    rw [ih fun x hx => h x (List.mem_cons_of_mem c hx)]

theorem stripTagsL_true_append (l r : List Char) (h : ∀ c ∈ l, c ≠ '>') :
    stripTagsL true (l ++ r) = stripTagsL true r := by
  induction l with
  | nil => rfl
  | cons c cs ih =>
    have hc : c ≠ '>' := h c (List.mem_cons_self c cs)
    simp only [List.cons_append, stripTagsL, if_neg hc, List.append_eq]
    exact ih fun x hx => h x (List.mem_cons_of_mem c hx)

theorem stripsTo_refl (s : String) (h : TagFreeStr s) : StripsTo s s := by
  intro r
  exact stripTagsL_false_append s.data r fun c hc => (h c hc).1

theorem stripsTo_empty : StripsTo "" "" := by
  intro r
  rfl

theorem stripsTo_append {a a' b b' : String} (ha : StripsTo a a') (hb : StripsTo b b') :
    StripsTo (a ++ b) (a' ++ b') := by
  intro r
  rw [String.data_append, String.data_append, List.append_assoc, ha (b.data ++ r),
    hb r, List.append_assoc]

theorem stripsTo_congr {a a' b b' : String} (h1 : a = a') (h2 : b = b')
    (h : StripsTo a' b') : StripsTo a b := by
  rw [h1, h2]
  exact h

theorem stripsTo_tag (inner : String) (h : NoGtStr inner) :
    StripsTo ("<" ++ inner ++ ">") "" := by
  intro r
  have hd : ("<" ++ inner ++ ">").data ++ r = '<' :: (inner.data ++ '>' :: r) := by
    simp [String.data_append]
  rw [hd]
  show stripTagsL false ('<' :: (inner.data ++ '>' :: r)) = "".data ++ stripTagsL false r
  rw [show ("" : String).data = [] from rfl, List.nil_append]
  simp only [stripTagsL, if_pos]
  rw [stripTagsL_true_append inner.data ('>' :: r) h]
  simp [stripTagsL]

theorem stripsTo_eq {s t : String} (h : StripsTo s t) : stripTags s = t := by
  apply String.ext
  show stripTagsL false s.data = t.data
  have hs := h []
  rw [List.append_nil] at hs
  rw [hs]
  show t.data ++ stripTagsL false [] = t.data
  simp [stripTagsL]

theorem noGt_append {a b : String} (ha : NoGtStr a) (hb : NoGtStr b) : NoGtStr (a ++ b) := by
  intro c hc
  rw [String.data_append] at hc
  rcases List.mem_append.mp hc with h | h
  · exact ha c h
  · exact hb c h

theorem tagFree_append {a b : String} (ha : TagFreeStr a) (hb : TagFreeStr b) :
    TagFreeStr (a ++ b) := by
  intro c hc
  rw [String.data_append] at hc
  rcases List.mem_append.mp hc with h | h
  · exact ha c h
  · exact hb c h

theorem noGt_attrText (attrs : List (String × String))
    (h : ∀ kv ∈ attrs, NoGtStr kv.1 ∧ NoGtStr kv.2) : NoGtStr (attrText attrs) := by
  suffices haux : ∀ (l : List (String × String)) (init : String), NoGtStr init →
      (∀ kv ∈ l, NoGtStr kv.1 ∧ NoGtStr kv.2) →
      NoGtStr (l.foldl (fun acc kv => acc ++ " " ++ kv.1 ++ "=\"" ++ kv.2 ++ "\"") init) by
    exact haux attrs "" (by intro c hc; cases hc) h
  intro l
  induction l with
  | nil => intro init hinit _; exact hinit
  | cons kv rest ih =>
    intro init hinit hl
    simp only [List.foldl_cons]
    refine ih _ ?_ fun x hx => hl x (List.mem_cons_of_mem kv hx)
    have h1 := (hl kv (List.mem_cons_self kv rest)).1
    have h2 := (hl kv (List.mem_cons_self kv rest)).2
    have hsp : NoGtStr " " := by decide
    have heq : NoGtStr "=\"" := by decide
    have hq : NoGtStr "\"" := by decide
    exact noGt_append (noGt_append (noGt_append (noGt_append (noGt_append hinit hsp) h1)
      heq) h2) hq

theorem stripsTo_wrapElement (content c' tag : String) (attrs : List (String × String))
    (hc : StripsTo content c') (ht : NoGtStr tag) (ha : NoGtStr (attrText attrs)) :
    StripsTo (wrapElement content tag attrs) c' := by
  have hsplit : wrapElement content tag attrs =
      ("<" ++ (tag ++ attrText attrs) ++ ">") ++ content ++ ("<" ++ ("/" ++ tag) ++ ">") := by
    apply String.ext
    unfold wrapElement
    simp [String.data_append]
  rw [hsplit]
  have h1 : StripsTo ("<" ++ (tag ++ attrText attrs) ++ ">") "" :=
    stripsTo_tag _ (noGt_append ht ha)
  have h2 : StripsTo ("<" ++ ("/" ++ tag) ++ ">") "" :=
    stripsTo_tag _ (noGt_append (by decide) ht)
  have := stripsTo_append (stripsTo_append h1 hc) h2
  apply stripsTo_congr rfl ?_ this
  apply String.ext
  simp [String.data_append]

theorem stripsTo_wrapSpan (content c' className : String) (tooltip : Option String)
    (hc : StripsTo content c') (hcl : NoGtStr className)
    (htt : ∀ t, tooltip = some t → NoGtStr t) :
    StripsTo (wrapSpan content className tooltip) c' := by
  unfold wrapSpan
  apply stripsTo_wrapElement content c' "span" _ hc (by decide)
  apply noGt_attrText
  intro kv hkv
  rcases List.mem_cons.mp hkv with rfl | hkv
  · constructor
    · show NoGtStr "class"
      decide
    · exact hcl
  · cases htt' : tooltip with
    | none =>
      rw [htt'] at hkv
      dsimp only at hkv
      cases hkv
    | some t =>
      rw [htt'] at hkv
      dsimp only at hkv
      by_cases he : t = ""
      · rw [if_pos he] at hkv
        cases hkv
      · rw [if_neg he] at hkv
        rcases List.mem_singleton.mp hkv with rfl
        constructor
        · show NoGtStr "data-tooltip"
          decide
        · exact htt t htt'

theorem stripsTo_spanIf (content className : String) (tooltip : Option String)
    (h : TagFreeStr content) (hcl : NoGtStr className)
    (htt : ∀ t, tooltip = some t → NoGtStr t) :
    StripsTo (wrapSpanIfHTML .html content className tooltip)
      (wrapSpanIfHTML .txt content className tooltip) := by
  show StripsTo (wrapSpan content className tooltip) content
  exact stripsTo_wrapSpan content content className tooltip (stripsTo_refl content h) hcl htt

theorem joinWith_cons (sep x : String) (xs : List String) (h : xs ≠ []) :
    joinWith sep (x :: xs) = x ++ sep ++ joinWith sep xs := by
  apply String.ext
  show intercalateL sep.data ((x :: xs).map String.data) = _
  rw [List.map_cons, intercalateL_cons sep.data x.data (xs.map String.data) ?_]
  · simp [String.data_append, joinWith]
  · intro hmm
    apply h
    cases xs with
    | nil => rfl
    | cons a l => cases hmm

theorem forall₂_map {α : Type} (f g : α → String) (l : List α)
    (h : ∀ a ∈ l, StripsTo (f a) (g a)) :
    List.Forall₂ StripsTo (l.map f) (l.map g) := by
  induction l with
  | nil => exact List.Forall₂.nil
  | cons a l ih =>
    exact List.Forall₂.cons (h a (List.mem_cons_self a l))
      (ih fun x hx => h x (List.mem_cons_of_mem a hx))

theorem stripsTo_joinWith (sep : String) (hsep : TagFreeStr sep) :
    ∀ (l l' : List String), List.Forall₂ StripsTo l l' →
      StripsTo (joinWith sep l) (joinWith sep l') := by
  intro l
  induction l with
  | nil =>
    intro l' h
    cases h
    intro r
    rfl
  | cons x xs ih =>
    intro l' h
    cases h with
    | cons hx hxs =>
      rename_i y ys
      cases xs with
      | nil =>
        cases hxs
        have e1 : joinWith sep [x] = x := String.ext rfl
        have e2 : joinWith sep [y] = y := String.ext rfl
        rw [e1, e2]
        exact hx
      | cons z zs =>
        have hys : ys ≠ [] := by
          cases hxs
          simp
        rw [joinWith_cons sep x (z :: zs) (by simp), joinWith_cons sep y ys hys]
        exact stripsTo_append (stripsTo_append hx (stripsTo_refl sep hsep)) (ih ys hxs)


theorem splitOnSpaceL_chars : ∀ (l w : List Char), w ∈ splitOnSpaceL l → ∀ c ∈ w, c ∈ l := by
  intro l
  induction l with
  | nil =>
    intro w hw c hc
    simp only [splitOnSpaceL, List.mem_singleton] at hw
    subst hw
    cases hc
  | cons x xs ih =>
    intro w hw c hc
    simp only [splitOnSpaceL] at hw
    by_cases hx : x = ' '
    · rw [if_pos hx] at hw
      rcases List.mem_cons.mp hw with rfl | hw
      · cases hc
      · exact List.mem_cons_of_mem x (ih w hw c hc)
    · rw [if_neg hx] at hw
      cases hs : splitOnSpaceL xs with
      | nil =>
        rw [hs] at hw
        rcases List.mem_singleton.mp hw with rfl
        rcases List.mem_singleton.mp hc with rfl
        exact List.mem_cons_self c xs
      | cons w' ws' =>
        rw [hs] at hw
        rcases List.mem_cons.mp hw with rfl | hw
        · rcases List.mem_cons.mp hc with rfl | hc
          · exact List.mem_cons_self c xs
          · exact List.mem_cons_of_mem x
              (ih w' (by rw [hs]; exact List.mem_cons_self w' ws') c hc)
        · exact List.mem_cons_of_mem x
            (ih w (by rw [hs]; exact List.mem_cons_of_mem w' hw) c hc)

theorem trimL_subset (l : List Char) : ∀ c ∈ trimL l, c ∈ l := by
  intro c hc
  unfold trimL at hc
  rw [List.mem_reverse] at hc
  have h1 := (List.dropWhile_sublist Char.isWhitespace).subset hc
  rw [List.mem_reverse] at h1
  exact (List.dropWhile_sublist Char.isWhitespace).subset h1

theorem goPack_chars (maxLength : Nat) (P : Char → Prop) (hsp : P ' ') :
    ∀ (ws : List (List Char)) (cur : List Char), (∀ c ∈ cur, P c) →
      (∀ w ∈ ws, ∀ c ∈ w, P c) → ∀ l ∈ goPack maxLength cur ws, ∀ c ∈ l, P c := by
  intro ws
  induction ws with
  | nil =>
    intro cur hcur _ l hl c hc
    simp only [goPack, List.mem_singleton] at hl
    subst hl
    exact hcur c (trimL_subset cur c hc)
  | cons w ws ih =>
    intro cur hcur hws l hl c hc
    simp only [goPack] at hl
    split_ifs at hl with hfit
    · refine ih _ ?_ (fun x hx => hws x (List.mem_cons_of_mem w hx)) l hl c hc
      intro d hd
      rcases List.mem_append.mp hd with hd | hd
      · exact hcur d hd
      · rcases List.mem_cons.mp hd with rfl | hd
        · exact hsp
        · exact hws w (List.mem_cons_self w ws) d hd
    · rcases List.mem_cons.mp hl with rfl | hl
      · exact hcur c (trimL_subset cur c hc)
      · exact ih w (hws w (List.mem_cons_self w ws))
          (fun x hx => hws x (List.mem_cons_of_mem w hx)) l hl c hc

theorem splitString_chars (text seg : String)
    (h : seg ∈ splitString text COMMENT_MAX_PRINT_WIDTH) :
    ∀ c ∈ seg.data, c ∈ text.data ∨ c = ' ' := by
  intro c hc
  unfold splitString splitStringL at h
  obtain ⟨l', hl', rfl⟩ := List.mem_map.mp h
  refine goPack_chars _ (fun c => c ∈ text.data ∨ c = ' ') (Or.inr rfl) _ [] ?_ ?_ l' hl' c hc
  · intro d hd
    cases hd
  · intro w hw d hd
    exact Or.inl (splitOnSpaceL_chars text.data w hw d hd)

theorem tagFree_segment (text seg : String) (htf : TagFreeStr text)
    (h : seg ∈ splitString text COMMENT_MAX_PRINT_WIDTH) : TagFreeStr seg := by
  intro c hc
  rcases splitString_chars text seg h c hc with hm | rfl
  · exact htf c hm
  · exact ⟨by decide, by decide⟩

theorem stripsTo_formatComment (text : String) (h : TagFreeStr text) :
    StripsTo (formatComment .html text) (formatComment .txt text) := by
  unfold formatComment
  apply stripsTo_joinWith "\n" (by decide)
  apply forall₂_map
  intro seg hseg
  exact stripsTo_spanIf seg "comment" none (tagFree_segment text seg h hseg) (by decide)
    (fun t ht => by cases ht)

theorem intercalateL_chars (sep : List Char) :
    ∀ (ws : List (List Char)) (c : Char), c ∈ intercalateL sep ws →
      (∃ w ∈ ws, c ∈ w) ∨ c ∈ sep := by
  intro ws
  induction ws with
  | nil =>
    intro c hc
    cases hc
  | cons w rs ih =>
    intro c hc
    cases rs with
    | nil => exact Or.inl ⟨w, List.mem_cons_self w [], hc⟩
    | cons y rr =>
      rw [intercalateL_cons sep w (y :: rr) (by simp)] at hc
      rcases List.mem_append.mp hc with hc | hc
      · rcases List.mem_append.mp hc with hc | hc
        · exact Or.inl ⟨w, List.mem_cons_self w _, hc⟩
        · exact Or.inr hc
      · rcases ih c hc with ⟨w', hw', hcw⟩ | hcs
        · exact Or.inl ⟨w', List.mem_cons_of_mem w hw', hcw⟩
        · exact Or.inr hcs

theorem tagFree_joinWith (sep : String) (hsep : TagFreeStr sep) (l : List String)
    (h : ∀ x ∈ l, TagFreeStr x) : TagFreeStr (joinWith sep l) := by
  intro c hc
  have hm : c ∈ intercalateL sep.data (l.map String.data) := hc
  rcases intercalateL_chars sep.data (l.map String.data) c hm with ⟨w, hw, hcw⟩ | hcs
  · obtain ⟨x, hx, rfl⟩ := List.mem_map.mp hw
    exact h x hx c hcw
  · exact hsep c hcs

theorem tagFree_padEnd (s : String) (n : Nat) (h : TagFreeStr s) : TagFreeStr (padEnd s n) := by
  intro c hc
  unfold padEnd at hc
  rw [String.data_append] at hc
  rcases List.mem_append.mp hc with hm | hm
  · exact h c hm
  · have he := List.eq_of_mem_replicate hm
    subst he
    exact ⟨by decide, by decide⟩


theorem mem_of_lookupKey {α : Type} : ∀ (m : List (String × α)) (k : String) (v : α),
    lookupKey m k = some v → (k, v) ∈ m := by
  intro m
  induction m with
  | nil =>
    intro k v h
    cases h
  | cons p rest ih =>
    intro k v h
    obtain ⟨k', v'⟩ := p
    simp only [lookupKey] at h
    by_cases hk : k' = k
    · rw [if_pos hk] at h
      injection h with h
      subst hk
      subst h
      exact List.mem_cons_self _ _
    · rw [if_neg hk] at h
      exact List.mem_cons_of_mem _ (ih k v h)

theorem mem_setKey {α : Type} : ∀ (m : List (String × α)) (k : String) (v : α)
    (p : String × α), p ∈ setKey m k v → p = (k, v) ∨ p ∈ m := by
  intro m
  induction m with
  | nil =>
    intro k v p hp
    simp only [setKey, List.mem_singleton] at hp
    exact Or.inl hp
  | cons q rest ih =>
    intro k v p hp
    obtain ⟨k', v'⟩ := q
    simp only [setKey] at hp
    by_cases hk : k' = k
    · rw [if_pos hk] at hp
      rcases List.mem_cons.mp hp with rfl | hp
      · exact Or.inl rfl
      · exact Or.inr (List.mem_cons_of_mem _ hp)
    · rw [if_neg hk] at hp
      rcases List.mem_cons.mp hp with rfl | hp
      · exact Or.inr (List.mem_cons_self _ _)
      · rcases ih k v p hp with h | h
        · exact Or.inl h
        · exact Or.inr (List.mem_cons_of_mem _ h)

theorem foldl_enumsStep_pred (Q : String × List String → Prop) :
    ∀ (l : List EnumRow) (m : List (String × List String)),
      (∀ p ∈ m, Q p) → (∀ e ∈ l, Q (e.enum_name, e.enum_values)) →
      ∀ p ∈ l.foldl enumsStep m, Q p := by
  intro l
  induction l with
  | nil =>
    intro m hm _ p hp
    exact hm p hp
  | cons e l ih =>
    intro m hm hl p hp
    simp only [List.foldl_cons] at hp
    refine ih (enumsStep m e) ?_ (fun x hx => hl x (List.mem_cons_of_mem e hx)) p hp
    intro q hq
    rcases mem_setKey m e.enum_name e.enum_values q hq with rfl | hqm
    · exact hl e (List.mem_cons_self e l)
    · exact hm q hqm

theorem enumsByName_values (enums : List EnumRow) :
    ∀ p ∈ enumsByName enums, ∃ e ∈ enums, p = (e.enum_name, e.enum_values) :=
  foldl_enumsStep_pred (fun p => ∃ e ∈ enums, p = (e.enum_name, e.enum_values)) enums []
    (fun p hp => by cases hp) (fun e he => ⟨e, he, rfl⟩)

theorem foldl_refStep_pred (Q : String → Prop) :
    ∀ (l : List ColumnRow), (∀ c ∈ l, Q c.table_name) →
      ∀ (m : List (String × List String)), (∀ p ∈ m, ∀ x ∈ p.2, Q x) →
      ∀ p ∈ l.foldl refStep m, ∀ x ∈ p.2, Q x := by
  intro l
  induction l with
  | nil =>
    intro _ m hm p hp
    exact hm p hp
  | cons c l ih =>
    intro hsub m hm p hp
    simp only [List.foldl_cons] at hp
    refine ih (fun d hd => hsub d (List.mem_cons_of_mem c hd)) (refStep m c) ?_ p hp
    intro q hq x hx
    unfold refStep at hq
    by_cases hd : c.data_type = ENUM_DATA_TYPE
    · rw [if_pos hd] at hq
      cases hlk : lookupKey m c.udt_name with
      | some s =>
        rw [hlk] at hq
        rcases mem_setKey m c.udt_name (setAdd s c.table_name) q hq with rfl | hqm
        · unfold setAdd at hx
          split_ifs at hx with hmem
          · exact hm (c.udt_name, s) (mem_of_lookupKey m c.udt_name s hlk) x hx
          · rcases List.mem_append.mp hx with hx | hx
            · exact hm (c.udt_name, s) (mem_of_lookupKey m c.udt_name s hlk) x hx
            · rcases List.mem_singleton.mp hx with rfl
              exact hsub c (List.mem_cons_self c l)
        · exact hm q hqm x hx
      | none =>
        rw [hlk] at hq
        rcases mem_setKey m c.udt_name (setAdd [] c.table_name) q hq with rfl | hqm
        · unfold setAdd at hx
          split_ifs at hx with hmem
          · cases hx
          · rcases List.mem_append.mp hx with hx | hx
            · cases hx
            · rcases List.mem_singleton.mp hx with rfl
              exact hsub c (List.mem_cons_self c l)
        · exact hm q hqm x hx
    · rw [if_neg hd] at hq
      exact hm q hq x hx

theorem refs_tables (cols : List ColumnRow) :
    ∀ p ∈ enumTableReferences cols, ∀ x ∈ p.2, ∃ c ∈ cols, x = c.table_name :=
  fun p hp => foldl_refStep_pred (fun x => ∃ c ∈ cols, x = c.table_name) cols
    (fun c hc => ⟨c, hc, rfl⟩) [] (fun q hq => by cases hq) p hp

theorem tableName_tagFree (cols : List ColumnRow) (hc : ∀ c ∈ cols, RowTagFree c)
    (t : String) (ht : t ∈ sortedTableNames cols) : TagFreeStr t := by
  unfold sortedTableNames at ht
  have hk := (sortStrs_perm _).mem_iff.mp ht
  unfold schemaGrouped at hk
  rw [mem_keys_foldl] at hk
  rcases hk with hk | ⟨c, hcm, rfl⟩
  · cases hk
  · exact (hc c (((List.perm_insertionSort leNull cols).mem_iff).mp hcm)).1

theorem tableColsOf_mem (cols : List ColumnRow) (t : String) (c' : ColumnRow)
    (h : c' ∈ tableColsOf cols t) : c' ∈ cols := by
  rw [tableColsOf_eq] at h
  have hm := (List.mem_filter.mp h).1
  exact ((List.perm_insertionSort leNull cols).mem_iff).mp hm


theorem stripsTo_openParens : StripsTo (openParens .html) (openParens .txt) :=
  stripsTo_spanIf "(" "punctuation" none (by decide) (by decide) (fun t ht => by cases ht)

theorem stripsTo_closeParens : StripsTo (closeParens .html) (closeParens .txt) :=
  stripsTo_spanIf ")" "punctuation" none (by decide) (by decide) (fun t ht => by cases ht)

theorem stripsTo_openCurly : StripsTo (openCurlyBracket .html) (openCurlyBracket .txt) :=
  stripsTo_spanIf "\x7b" "punctuation" none (by decide) (by decide) (fun t ht => by cases ht)

theorem stripsTo_closeCurly : StripsTo (closeCurlyBracket .html) (closeCurlyBracket .txt) :=
  stripsTo_spanIf "\x7d" "punctuation" none (by decide) (by decide) (fun t ht => by cases ht)

theorem stripsTo_formattedColumnType (c : ColumnRow) (W : Nat) (h : RowTagFree c) :
    StripsTo (formattedColumnType .html c W) (formattedColumnType .txt c W) := by
  unfold formattedColumnType
  refine stripsTo_spanIf _ _ _ ?_ (by decide) (fun t ht => by cases ht)
  apply tagFree_padEnd
  unfold displayType
  split_ifs
  · exact h.2.2.2.1
  · exact h.2.2.1

theorem stripsTo_defaultClause (c : ColumnRow) (h : RowTagFree c) :
    StripsTo (defaultClause .html c) (defaultClause .txt c) := by
  unfold defaultClause
  cases hd : c.column_default with
  | none => exact stripsTo_empty
  | some s =>
    dsimp only
    by_cases he : s = ""
    · rw [if_pos he, if_pos he]
      exact stripsTo_empty
    · rw [if_neg he, if_neg he]
      have hs : TagFreeStr s := h.2.2.2.2.1 s hd
      exact stripsTo_append (stripsTo_append (stripsTo_append
        (stripsTo_spanIf "DEFAULT" "columnProperty" none (by decide) (by decide)
          (fun t ht => by cases ht))
        (stripsTo_refl " " (by decide)))
        (stripsTo_spanIf s "text" none hs (by decide) (fun t ht => by cases ht)))
        (stripsTo_refl " " (by decide))

theorem stripsTo_referenceClause (c : ColumnRow) (h : RowTagFree c) :
    StripsTo (referenceClause .html c) (referenceClause .txt c) := by
  unfold referenceClause
  by_cases hcond : truthy c.foreign_key_table = true ∧ truthy c.foreign_key_column = true
  · rw [if_pos hcond, if_pos hcond]
    have ht : TagFreeStr (c.foreign_key_table.getD "") := by
      cases hft : c.foreign_key_table with
      | none =>
        intro ch hch
        cases hch
      | some t => exact h.2.2.2.2.2.1 t hft
    have hcn : TagFreeStr (c.foreign_key_column.getD "") := by
      cases hfc : c.foreign_key_column with
      | none =>
        intro ch hch
        cases hch
      | some u => exact h.2.2.2.2.2.2.1 u hfc
    have h1 : StripsTo (wrapSpanIfHTML .html "REFERENCES" "columnProperty" none)
        (wrapSpanIfHTML .txt "REFERENCES" "columnProperty" none) :=
      stripsTo_spanIf "REFERENCES" "columnProperty" none (by decide) (by decide)
        (fun t ht' => by cases ht')
    have h2 : StripsTo " " " " := stripsTo_refl " " (by decide)
    have h3 : StripsTo (wrapSpanIfHTML .html (c.foreign_key_table.getD "") "tableName" none)
        (wrapSpanIfHTML .txt (c.foreign_key_table.getD "") "tableName" none) :=
      stripsTo_spanIf _ "tableName" none ht (by decide) (fun t ht' => by cases ht')
    have h4 : StripsTo (wrapSpanIfHTML .html (c.foreign_key_column.getD "") "text" none)
        (wrapSpanIfHTML .txt (c.foreign_key_column.getD "") "text" none) :=
      stripsTo_spanIf _ "text" none hcn (by decide) (fun t ht' => by cases ht')
    exact stripsTo_append (stripsTo_append (stripsTo_append (stripsTo_append (stripsTo_append
      (stripsTo_append h1 h2) h3) stripsTo_openParens) h4) stripsTo_closeParens) h2
  · rw [if_neg hcond, if_neg hcond]
    exact stripsTo_empty

theorem stripsTo_deleteRuleClause (c : ColumnRow) (h : RowTagFree c) :
    StripsTo (deleteRuleClause .html c) (deleteRuleClause .txt c) := by
  unfold deleteRuleClause
  cases hd : c.foreign_key_delete_rule with
  | none => exact stripsTo_empty
  | some s =>
    dsimp only
    by_cases he : s ≠ "" ∧ s ≠ "NO ACTION"
    · rw [if_pos he, if_pos he]
      have hs : TagFreeStr s := h.2.2.2.2.2.2.2.1 s hd
      exact stripsTo_append (stripsTo_append (stripsTo_append
        (stripsTo_spanIf "ON DELETE" "columnProperty" none (by decide) (by decide)
          (fun t ht => by cases ht))
        (stripsTo_refl " " (by decide)))
        (stripsTo_spanIf s "text" none hs (by decide) (fun t ht => by cases ht)))
        (stripsTo_refl " " (by decide))
    · rw [if_neg he, if_neg he]
      exact stripsTo_empty

theorem stripsTo_updateRuleClause (c : ColumnRow) (h : RowTagFree c) :
    StripsTo (updateRuleClause .html c) (updateRuleClause .txt c) := by
  unfold updateRuleClause
  cases hd : c.foreign_key_update_rule with
  | none => exact stripsTo_empty
  | some s =>
    dsimp only
    by_cases he : s ≠ "" ∧ s ≠ "NO ACTION"
    · rw [if_pos he, if_pos he]
      have hs : TagFreeStr s := h.2.2.2.2.2.2.2.2 s hd
      exact stripsTo_append (stripsTo_append (stripsTo_append
        (stripsTo_spanIf "ON UPDATE" "columnProperty" none (by decide) (by decide)
          (fun t ht => by cases ht))
        (stripsTo_refl " " (by decide)))
        (stripsTo_spanIf s "text" none hs (by decide) (fun t ht => by cases ht)))
        (stripsTo_refl " " (by decide))
    · rw [if_neg he, if_neg he]
      exact stripsTo_empty

theorem stripsTo_formattedColumnNullable (c : ColumnRow) (h : RowTagFree c) :
    StripsTo (formattedColumnNullable .html c) (formattedColumnNullable .txt c) := by
  unfold formattedColumnNullable
  by_cases hn : c.is_nullable = true
  · rw [if_pos hn, if_pos hn]
    refine stripsTo_spanIf _ _ _ (by decide) (by decide) ?_
    intro t ht
    injection ht with ht
    subst ht
    exact noGt_append (fun ch hch => (h.2.1 ch hch).2) (by decide)
  · rw [if_neg hn, if_neg hn]
    exact stripsTo_empty


theorem span_open_strips : StripsTo "<span class=\"columnName\">" "" :=
  stripsTo_congr (by decide) rfl (stripsTo_tag "span class=\"columnName\"" (by decide))

theorem span_close_strips : StripsTo "</span>" "" :=
  stripsTo_congr (by decide) rfl (stripsTo_tag "/span" (by decide))

theorem exists_first_qmark : ∀ l : List Char, '?' ∈ l →
    ∃ p q, l = p ++ '?' :: q ∧ ∀ c ∈ p, c ≠ '?' := by
  intro l
  induction l with
  | nil =>
    intro h
    cases h
  | cons c cs ih =>
    intro h
    by_cases hc : c = '?'
    · subst hc
      exact ⟨[], cs, rfl, fun x hx => absurd hx (List.not_mem_nil x)⟩
    · have hm : '?' ∈ cs := by
        rcases List.mem_cons.mp h with he | hm
        · exact absurd he.symm hc
        · exact hm
      obtain ⟨p, q, heq, hp⟩ := ih hm
      refine ⟨c :: p, q, ?_, ?_⟩
      · rw [List.cons_append, heq]
      · intro x hx
        rcases List.mem_cons.mp hx with rfl | hx
        · exact hc
        · exact hp x hx

theorem stripsTo_formattedColumnName (c : ColumnRow) (W : Nat) (h : RowTagFree c)
    (hd : NoDollarName c) :
    StripsTo (formattedColumnName .html c W) (formattedColumnName .txt c W) := by
  have hrepH : '$' ∉ (formattedColumnNullable .html c).data :=
    formattedColumnNullable_no_dollar .html c hd
  have hrepT : '$' ∉ (formattedColumnNullable .txt c).data :=
    formattedColumnNullable_no_dollar .txt c hd
  have hname : TagFreeStr c.column_name := h.2.1
  have hpadTF : TagFreeStr (paddedColumnName c W) := by
    unfold paddedColumnName
    apply tagFree_padEnd
    apply tagFree_append hname
    split_ifs
    · decide
    · decide
  have hM : StripsTo (formattedColumnNullable .html c) (formattedColumnNullable .txt c) :=
    stripsTo_formattedColumnNullable c h
  have hspan : (wrapSpanIfHTML .html (paddedColumnName c W) "columnName" none).data =
      "<span class=\"columnName\">".data ++ (paddedColumnName c W).data ++
        "</span>".data := by
    show (wrapSpan (paddedColumnName c W) "columnName" none).data = _
    unfold wrapSpan wrapElement attrText
    simp [String.data_append]
  have hopen : ∀ ch ∈ "<span class=\"columnName\">".data, ch ≠ '?' := by decide
  by_cases hq : '?' ∈ (paddedColumnName c W).data
  · obtain ⟨p, q, heq, hp⟩ := exists_first_qmark _ hq
    have hpmem : ∀ x ∈ p, x ∈ (paddedColumnName c W).data := by
      intro x hx
      rw [heq]
      exact List.mem_append.mpr (Or.inl hx)
    have hqmem : ∀ x ∈ q, x ∈ (paddedColumnName c W).data := by
      intro x hx
      rw [heq]
      exact List.mem_append.mpr (Or.inr (List.mem_cons_of_mem _ hx))
    have hpTF : TagFreeStr (⟨p⟩ : String) := fun ch hch => hpadTF ch (hpmem ch hch)
    have hqTF : TagFreeStr (⟨q⟩ : String) := fun ch hch => hpadTF ch (hqmem ch hch)
    have hhtml : formattedColumnName .html c W =
        "<span class=\"columnName\">" ++ ((⟨p⟩ : String) ++
          (formattedColumnNullable .html c ++ ((⟨q⟩ : String) ++ "</span>"))) := by
      apply String.ext
      unfold formattedColumnName replaceFirst
      rw [data_mk, show ("?" : String).data = ['?'] from rfl]
      rw [hspan, heq]
      simp only [List.append_assoc]
      rw [List.cons_append '?' q "</span>".data]
      rw [replaceFirstL_not_mem_append _ _ _ hrepH hopen,
        replaceFirstL_not_mem_append _ _ _ hrepH hp, replaceFirstL_cons_match _ _ hrepH]
      simp [String.data_append, data_mk]
    have htxt : formattedColumnName .txt c W =
        "" ++ ((⟨p⟩ : String) ++
          (formattedColumnNullable .txt c ++ ((⟨q⟩ : String) ++ ""))) := by
      apply String.ext
      unfold formattedColumnName replaceFirst
      rw [data_mk, show ("?" : String).data = ['?'] from rfl]
      rw [show (wrapSpanIfHTML .txt (paddedColumnName c W) "columnName" none).data =
        (paddedColumnName c W).data from rfl]
      rw [heq, replaceFirstL_not_mem_append _ _ _ hrepT hp, replaceFirstL_cons_match _ _ hrepT]
      simp [String.data_append, data_mk]
    apply stripsTo_congr hhtml htxt
    exact stripsTo_append span_open_strips (stripsTo_append (stripsTo_refl _ hpTF)
      (stripsTo_append hM (stripsTo_append (stripsTo_refl _ hqTF) span_close_strips)))
  · have hclose : ∀ ch ∈ "</span>".data, ch ≠ '?' := by decide
    have hall : ∀ ch ∈ ("<span class=\"columnName\">".data ++
        ((paddedColumnName c W).data ++ "</span>".data)), ch ≠ '?' := by
      intro ch hch
      rcases List.mem_append.mp hch with h1 | h2
      · exact hopen ch h1
      · rcases List.mem_append.mp h2 with h3 | h4
        · intro he
          subst he
          exact hq h3
        · exact hclose ch h4
    have hhtml : formattedColumnName .html c W =
        wrapSpanIfHTML .html (paddedColumnName c W) "columnName" none := by
      apply String.ext
      unfold formattedColumnName replaceFirst
      rw [data_mk, show ("?" : String).data = ['?'] from rfl]
      rw [hspan, List.append_assoc, replaceFirstL_not_mem _ _ hall]
    have htxt : formattedColumnName .txt c W = paddedColumnName c W := by
      apply String.ext
      unfold formattedColumnName replaceFirst
      rw [data_mk, show ("?" : String).data = ['?'] from rfl]
      rw [show (wrapSpanIfHTML .txt (paddedColumnName c W) "columnName" none).data =
        (paddedColumnName c W).data from rfl]
      exact replaceFirstL_not_mem _ _ (fun ch hch he => hq (he ▸ hch))
    apply stripsTo_congr hhtml htxt
    exact stripsTo_spanIf _ "columnName" none hpadTF (by decide) (fun t ht => by cases ht)


theorem stripsTo_columnLine (c : ColumnRow) (W1 W2 : Nat) (h : RowTagFree c)
    (hd : NoDollarName c) :
    StripsTo (columnLine .html c W1 W2) (columnLine .txt c W1 W2) := by
  unfold columnLine
  exact stripsTo_append (stripsTo_append (stripsTo_append (stripsTo_append (stripsTo_append
    (stripsTo_formattedColumnName c W1 h hd) (stripsTo_formattedColumnType c W2 h))
    (stripsTo_defaultClause c h)) (stripsTo_referenceClause c h))
    (stripsTo_deleteRuleClause c h)) (stripsTo_updateRuleClause c h)

theorem stripsTo_tableBlockText (cols : List ColumnRow) (t : String)
    (hc : ∀ c ∈ cols, RowTagFree c) (hdall : ∀ c ∈ cols, NoDollarName c) (ht : TagFreeStr t) :
    StripsTo (tableBlockText .html cols t) (tableBlockText .txt cols t) := by
  unfold tableBlockText
  have hlines : StripsTo (joinWith "" (tableBlockLines .html cols t))
      (joinWith "" (tableBlockLines .txt cols t)) := by
    apply stripsTo_joinWith "" (by decide)
    unfold tableBlockLines
    apply forall₂_map
    intro c' hc'
    have hr : RowTagFree c' := hc c' (tableColsOf_mem cols t c' hc')
    have hdr : NoDollarName c' := hdall c' (tableColsOf_mem cols t c' hc')
    exact stripsTo_append (stripsTo_append (stripsTo_refl TAB (by decide))
      (stripsTo_columnLine c' _ _ hr hdr)) (stripsTo_refl "\n" (by decide))
  have h1 : StripsTo (wrapSpanIfHTML .html "table" "tableType" none)
      (wrapSpanIfHTML .txt "table" "tableType" none) :=
    stripsTo_spanIf "table" "tableType" none (by decide) (by decide) (fun x hx => by cases hx)
  have h2 : StripsTo " " " " := stripsTo_refl " " (by decide)
  have h3 : StripsTo (wrapSpanIfHTML .html t "tableName" none)
      (wrapSpanIfHTML .txt t "tableName" none) :=
    stripsTo_spanIf t "tableName" none ht (by decide) (fun x hx => by cases hx)
  have h4 : StripsTo "\n" "\n" := stripsTo_refl "\n" (by decide)
  exact stripsTo_append (stripsTo_append (stripsTo_append (stripsTo_append (stripsTo_append
    (stripsTo_append (stripsTo_append (stripsTo_append h1 h2) h3) h2) stripsTo_openCurly) h4)
    hlines) stripsTo_closeCurly) (stripsTo_refl "\n\n" (by decide))

theorem stripsTo_tableBlocksText (cols : List ColumnRow) (hc : ∀ c ∈ cols, RowTagFree c)
    (hdall : ∀ c ∈ cols, NoDollarName c) :
    StripsTo (tableBlocksText .html cols) (tableBlocksText .txt cols) := by
  unfold tableBlocksText
  apply stripsTo_joinWith "" (by decide)
  apply forall₂_map
  intro t htm
  exact stripsTo_tableBlockText cols t hc hdall (tableName_tagFree cols hc t htm)

theorem stripsTo_enumBlockText (name : String) (refs vals : List String)
    (hn : TagFreeStr name) (hr : ∀ x ∈ refs, TagFreeStr x)
    (hv : ∀ v ∈ vals, TagFreeStr v) :
    StripsTo (enumBlockText .html name refs vals) (enumBlockText .txt name refs vals) := by
  unfold enumBlockText
  have hcTF : TagFreeStr ("-- Referenced in " ++ joinWith ", " refs ++ ".") :=
    tagFree_append (tagFree_append (by decide) (tagFree_joinWith ", " (by decide) refs hr))
      (by decide)
  have hcomm := stripsTo_formatComment _ hcTF
  have hvals : StripsTo
      (joinWith "" (vals.map fun v => TAB ++ wrapSpanIfHTML .html v "columnName" none ++ "\n"))
      (joinWith ""
        (vals.map fun v => TAB ++ wrapSpanIfHTML .txt v "columnName" none ++ "\n")) := by
    apply stripsTo_joinWith "" (by decide)
    apply forall₂_map
    intro v hvm
    exact stripsTo_append (stripsTo_append (stripsTo_refl TAB (by decide))
      (stripsTo_spanIf v "columnName" none (hv v hvm) (by decide) (fun x hx => by cases hx)))
      (stripsTo_refl "\n" (by decide))
  have h2 : StripsTo " " " " := stripsTo_refl " " (by decide)
  have h4 : StripsTo "\n" "\n" := stripsTo_refl "\n" (by decide)
  have hek : StripsTo (wrapSpanIfHTML .html "enum" "tableType" none)
      (wrapSpanIfHTML .txt "enum" "tableType" none) :=
    stripsTo_spanIf "enum" "tableType" none (by decide) (by decide) (fun x hx => by cases hx)
  have hnm : StripsTo (wrapSpanIfHTML .html name "tableName" none)
      (wrapSpanIfHTML .txt name "tableName" none) :=
    stripsTo_spanIf name "tableName" none hn (by decide) (fun x hx => by cases hx)
  exact stripsTo_append (stripsTo_append (stripsTo_append (stripsTo_append (stripsTo_append
    (stripsTo_append (stripsTo_append (stripsTo_append (stripsTo_append
    (stripsTo_append hcomm h4) hek) h2) hnm) h2) stripsTo_openCurly) h4) hvals)
    stripsTo_closeCurly) (stripsTo_refl "\n\n" (by decide))

theorem enumEntry_some (cols : List ColumnRow) (enums : List EnumRow) (name : String)
    (e : String × List String × List String) (h : enumEntry cols enums name = some e) :
    e.1 = name ∧ lookupKey (enumTableReferences cols) name = some e.2.1 ∧
      lookupKey (enumsByName enums) name = some e.2.2 := by
  unfold enumEntry at h
  cases h1 : lookupKey (enumTableReferences cols) name with
  | none =>
    rw [h1] at h
    cases h
  | some refs =>
    cases h2 : lookupKey (enumsByName enums) name with
    | none =>
      rw [h1, h2] at h
      cases h
    | some vals =>
      rw [h1, h2] at h
      cases h
      exact ⟨rfl, rfl, rfl⟩


/-- C9 (counterexample): a single nullable column whose tag-free name
    contains the dollar-backquote pattern.  The source replaces the first
    `?` of the span-wrapped padded name by the marker span, whose tooltip
    embeds the name; JS `GetSubstitution` expands the dollar-backquote in
    the replacement to the markup preceding the match, the injected tag
    terminator `>` ends the stripper's tag scan early, and non-whitespace
    text leaks: the stripped decorated body differs from the plain body. -/
theorem C9_counterexample :
    (∀ c ∈ cols9, RowTagFree c) ∧
      (schemaStringOpt .html cols9 []).map stripTags ≠ schemaStringOpt .txt cols9 [] := by
  decide

/-- C9 (amended): for every input whose strings contain no markup
    delimiters and whose column names are additionally free of the
    substitution character `$` (names are embedded in the marker tooltip,
    the replacement string of the source's `replace`, where JS
    `GetSubstitution` rewrites `$`-patterns), stripping all span/tag
    containers from the decorated-mode document body yields exactly the
    plain-mode document body for the same input (the equality is literal,
    so a fortiori it holds modulo markup-only whitespace).  Without the
    `$` condition the equivalence fails; see the counterexample. -/
theorem C9_strip_equiv (cols : List ColumnRow) (enums : List EnumRow)
    (hc : ∀ c ∈ cols, RowTagFree c) (hd : ∀ c ∈ cols, NoDollarName c)
    (he : ∀ e ∈ enums, EnumRowTagFree e) :
    (schemaStringOpt .html cols enums).map stripTags = schemaStringOpt .txt cols enums := by
  unfold schemaStringOpt
  cases hent : enumEntriesOpt cols enums with
  | none => rfl
  | some entries =>
    simp only [Option.map_some']
    congr 1
    apply stripsTo_eq
    apply stripsTo_append ?_ (stripsTo_tableBlocksText cols hc hd)
    apply stripsTo_joinWith "" (by decide)
    apply forall₂_map
    intro e hem
    obtain ⟨name, hnm, hfe⟩ :=
      optionMapList_mem_back (enumEntry cols enums) (sortedEnumNames enums) entries hent e hem
    obtain ⟨h1, h2, h3⟩ := enumEntry_some cols enums name e hfe
    have hpm3 := mem_of_lookupKey _ _ _ h3
    obtain ⟨e2, he2, hpe⟩ := enumsByName_values enums _ hpm3
    have hneq : name = e2.enum_name := congrArg Prod.fst hpe
    have hveq : e.2.2 = e2.enum_values := congrArg Prod.snd hpe
    have hnTF : TagFreeStr e.1 := by
      rw [h1, hneq]
      exact (he e2 he2).1
    have hrTF : ∀ x ∈ e.2.1, TagFreeStr x := by
      intro x hx
      have hpm2 := mem_of_lookupKey _ _ _ h2
      obtain ⟨c, hcm, rfl⟩ := refs_tables cols _ hpm2 x hx
      exact (hc c hcm).1
    have hvTF : ∀ v ∈ e.2.2, TagFreeStr v := by
      intro v hv
      rw [hveq] at hv
      exact (he e2 he2).2 v hv
    exact stripsTo_enumBlockText e.1 e.2.1 e.2.2 hnTF hrTF hvTF

/-- C9 (witness): the strip equivalence at a concrete schema with one
    enum-typed column and its matching enum row. -/
theorem C9_witness :
    (∀ c ∈ cols7w, RowTagFree c) ∧ (∀ c ∈ cols7w, NoDollarName c) ∧
      (∀ e ∈ enums7w, EnumRowTagFree e) ∧
      (schemaStringOpt .html cols7w enums7w).map stripTags =
        schemaStringOpt .txt cols7w enums7w :=
  ⟨by decide, by decide, by decide,
    C9_strip_equiv cols7w enums7w (by decide) (by decide) (by decide)⟩

/-- C7 (witness): the amended statement at a concrete matched input. -/
theorem C7_witness :
    (∀ e ∈ enums7w, ∃ c ∈ cols7w, c.data_type = ENUM_DATA_TYPE ∧
        c.udt_name = e.enum_name) ∧
      ((∃ s, schemaStringOpt .txt cols7w enums7w = some s) ∧
        ∀ u, (∀ e ∈ enums7w, e.enum_name ≠ u) →
          ∀ es, enumEntriesOpt cols7w enums7w = some es → ∀ x ∈ es, x.1 ≠ u) :=
  ⟨by decide, C7_unmatched_type_recovered .txt cols7w enums7w (by decide)⟩

end PrettyPostgres
